import Mathlib

/-!
Verification of the frame-to-event pipeline core of the `anpr-demo`
repository against its natural-language specification.

Each section shallowly embeds one TypeScript class of the source into
Lean: pure methods become Lean functions, the mutable instance state
(JS `Map`s and arrays) becomes explicit state passed in and out, and
JS numbers are modelled as exact rationals (`ℚ`) for confidences /
IoU values and integers (`ℤ`) for millisecond times.  JS `Map`
iteration order is insertion order, so maps are modelled as
insertion-ordered lists whose keys are unique by construction; JS
in-place mutation of an entry is modelled as keyed replacement.
The `TraceLogger` collaborator only emits log lines and never
influences control flow, so it is not modelled.
-/

/-! # Candidate Voter (`Voter.vote`, src/unnamed/part_008) -/

namespace Voter

/-- One OCR candidate: a text alternative with its confidence. -/
structure OCRCandidate where
  text : String
  conf : ℚ
deriving DecidableEq

/-- The tie-break method tag of a vote result. -/
inductive VoteMethod
  | frequency
  | confidence
  | tiebreak
deriving DecidableEq

/-- The per-text aggregation record built by the grouping pass of
`Voter.vote` (the JS `textGroups` map entry together with its key). -/
structure TextGroup where
  text : String
  count : Nat
  confidences : List ℚ
deriving DecidableEq

/-- The per-text statistics record (`voteCandidates` entry) of `Voter.vote`. -/
structure VoteCandidate where
  text : String
  count : Nat
  avgConfidence : ℚ
  maxConfidence : ℚ
  totalConfidence : ℚ
deriving DecidableEq

/-- The result record returned by `Voter.vote`.  The JS `votes` object is
keyed by text (texts are pairwise distinct after grouping), so it is
modelled as an association list in construction order. -/
structure VoteResult where
  winner : String
  confidence : ℚ
  votes : List (String × Nat)
  method : VoteMethod
  candidates : List VoteCandidate
deriving DecidableEq

/-- One step of the grouping loop (`allCandidates.forEach`): create the
group on first sight of a text (JS `Map.set` appends in insertion order),
then increment its count and push the confidence. -/
def addCandidate (groups : List TextGroup) (c : OCRCandidate) : List TextGroup :=
  if groups.any (fun g => g.text = c.text) then
    groups.map fun g =>
      if g.text = c.text then
        { g with count := g.count + 1, confidences := g.confidences ++ [c.conf] }
      else g
  else
    groups ++ [{ text := c.text, count := 1, confidences := [c.conf] }]

/-- The grouping pass of `Voter.vote` over the flattened candidates. -/
def groupByText (cs : List OCRCandidate) : List TextGroup :=
  cs.foldl addCandidate []

/-- The `Math.max(...list)` on a non-empty list (groups always hold at least
one confidence; the JS empty case would be `-Infinity` and is unreachable). -/
def listMax : List ℚ → ℚ
  | [] => 0
  | c :: cs => cs.foldl max c

/-- Mapping a group to its statistics record (`Array.from(...).map` in
`Voter.vote`): count, mean confidence, max confidence, total confidence. -/
def toVoteCandidate (g : TextGroup) : VoteCandidate :=
  { text := g.text
    count := g.count
    avgConfidence := g.confidences.sum / (g.confidences.length : ℚ)
    maxConfidence := listMax g.confidences
    totalConfidence := g.confidences.sum }

/-- Comparator of the first sort (`(a, b) => b.count - a.count`):
descending by count, stable for equal counts. -/
def leCount (a b : VoteCandidate) : Bool := b.count ≤ a.count

/-- Comparator of the tied-candidates sort (`b.avgConfidence - a.avgConfidence`). -/
def leAvg (a b : VoteCandidate) : Bool := b.avgConfidence ≤ a.avgConfidence

/-- Comparator of the final tie-break sort (`b.maxConfidence - a.maxConfidence`). -/
def leMax (a b : VoteCandidate) : Bool := b.maxConfidence ≤ a.maxConfidence

/-- The `Voter.createEmptyResult`. -/
def createEmptyResult : VoteResult :=
  { winner := ""
    confidence := 0
    votes := []
    method := .frequency
    candidates := [] }

/-- The `Voter.vote`: flatten, group by exact text, sort by count
(descending, stable as JS `Array.prototype.sort`), then apply the
three-level tie-break.  JS stable sorts are modelled by `List.mergeSort`. -/
def vote (candidates : List (List OCRCandidate)) : VoteResult :=
  if candidates.length = 0 then createEmptyResult
  else
    let allCandidates := candidates.flatten
    if allCandidates.length = 0 then createEmptyResult
    else
      let voteCandidates := ((groupByText allCandidates).map toVoteCandidate).mergeSort leCount
      match voteCandidates with
      | [] => createEmptyResult
      | v0 :: vrest =>
        let winnerMethod : VoteCandidate × VoteMethod :=
          match vrest with
          | [] => (v0, .frequency)
          | v1 :: _ =>
            if v0.count > v1.count then (v0, .frequency)
            else
              let tiedCandidates := (v0 :: vrest).filter (fun c => c.count = v0.count)
              let tiedSorted := tiedCandidates.mergeSort leAvg
              match tiedSorted with
              | [] => (v0, .frequency)
              | t0 :: trest =>
                match trest with
                | [] => (t0, .confidence)
                | t1 :: _ =>
                  if t0.avgConfidence > t1.avgConfidence then (t0, .confidence)
                  else
                    let tiedSorted2 := tiedSorted.mergeSort leMax
                    (tiedSorted2.headD t0, .tiebreak)
        { winner := winnerMethod.1.text
          confidence := winnerMethod.1.avgConfidence
          votes := (v0 :: vrest).map fun c => (c.text, c.count)
          method := winnerMethod.2
          candidates := v0 :: vrest }

end Voter

/-! ## Supporting lemmas for the Voter proofs -/

namespace Voter

/-- A relation holding between any two members of a list holds pairwise. -/
lemma pairwise_of_mem {α : Type} {R : α → α → Prop} {l : List α}
    (h : ∀ a ∈ l, ∀ b ∈ l, R a b) : l.Pairwise R := by
  induction l with
  | nil => exact .nil
  | cons x xs ih =>
    exact .cons (fun y hy => h x (.head _) y (.tail _ hy))
      (ih fun a ha b hb => h a (.tail _ ha) b (.tail _ hb))

lemma leCount_trans : ∀ a b c : VoteCandidate,
    leCount a b = true → leCount b c = true → leCount a c = true := by
  intro a b c
  simp only [leCount, decide_eq_true_eq]
  omega

lemma leCount_total : ∀ a b : VoteCandidate, (leCount a b || leCount b a) = true := by
  intro a b
  simp only [leCount, Bool.or_eq_true, decide_eq_true_eq]
  omega

lemma leAvg_trans : ∀ a b c : VoteCandidate,
    leAvg a b = true → leAvg b c = true → leAvg a c = true := by
  intro a b c
  simp only [leAvg, decide_eq_true_eq]
  intro h1 h2
  exact le_trans h2 h1

lemma leAvg_total : ∀ a b : VoteCandidate, (leAvg a b || leAvg b a) = true := by
  intro a b
  simp only [leAvg, Bool.or_eq_true, decide_eq_true_eq]
  exact le_total b.avgConfidence a.avgConfidence

lemma leMax_trans : ∀ a b c : VoteCandidate,
    leMax a b = true → leMax b c = true → leMax a c = true := by
  intro a b c
  simp only [leMax, decide_eq_true_eq]
  intro h1 h2
  exact le_trans h2 h1

lemma leMax_total : ∀ a b : VoteCandidate, (leMax a b || leMax b a) = true := by
  intro a b
  simp only [leMax, Bool.or_eq_true, decide_eq_true_eq]
  exact le_total b.maxConfidence a.maxConfidence

/-- Grouping never merges distinct texts: the group keys stay unique. -/
lemma addCandidate_nodup {groups : List TextGroup} {c : OCRCandidate}
    (h : (groups.map (·.text)).Nodup) : ((addCandidate groups c).map (·.text)).Nodup := by
  unfold addCandidate
  by_cases hmem : groups.any (fun g => g.text = c.text)
  · simp only [hmem, if_true]
    have : ((groups.map fun g =>
        if g.text = c.text then
          { g with count := g.count + 1, confidences := g.confidences ++ [c.conf] }
        else g).map (·.text)) = groups.map (·.text) := by
      rw [List.map_map]
      apply List.map_congr_left
      intro g _
      by_cases hg : g.text = c.text <;> simp [hg]
    rw [this]
    exact h
  · simp only [hmem, if_false, Bool.false_eq_true]
    rw [List.map_append, List.nodup_append]
    refine ⟨h, List.nodup_singleton _, ?_⟩
    intro t ht
    simp only [List.map_cons, List.map_nil, List.mem_singleton]
    intro heq
    apply hmem
    rw [List.any_eq_true]
    obtain ⟨g, hg, hgt⟩ := List.mem_map.mp ht
    exact ⟨g, hg, by simp [hgt, heq]⟩

lemma groupByText_text_nodup (cs : List OCRCandidate) :
    ((groupByText cs).map (·.text)).Nodup := by
  suffices h : ∀ groups : List TextGroup, (groups.map (·.text)).Nodup →
      ((cs.foldl addCandidate groups).map (·.text)).Nodup by
    exact h [] (by simp)
  induction cs with
  | nil => intro groups h; simpa using h
  | cons c cs ih =>
    intro groups h
    exact ih _ (addCandidate_nodup h)

/-- The vote-candidate records of a candidate list, in grouping
(first-encounter) order, before any sorting. -/
def voteCandidatesOf (cs : List OCRCandidate) : List VoteCandidate :=
  (groupByText cs).map toVoteCandidate

lemma voteCandidatesOf_text_nodup (cs : List OCRCandidate) :
    ((voteCandidatesOf cs).map (·.text)).Nodup := by
  have h := groupByText_text_nodup cs
  have : (voteCandidatesOf cs).map (·.text) = (groupByText cs).map (·.text) := by
    simp [voteCandidatesOf, List.map_map, toVoteCandidate]
  rw [this]
  exact h

lemma voteCandidatesOf_nodup (cs : List OCRCandidate) :
    (voteCandidatesOf cs).Nodup :=
  List.Nodup.of_map _ (voteCandidatesOf_text_nodup cs)

/-- Members of `voteCandidatesOf` with equal texts are equal. -/
lemma voteCandidatesOf_text_inj {cs : List OCRCandidate} {a b : VoteCandidate}
    (ha : a ∈ voteCandidatesOf cs) (hb : b ∈ voteCandidatesOf cs)
    (h : a.text = b.text) : a = b :=
  List.inj_on_of_nodup_map (voteCandidatesOf_text_nodup cs) ha hb h

lemma groupByText_nil_iff (cs : List OCRCandidate) :
    groupByText cs = [] ↔ cs = [] := by
  constructor
  · intro h
    cases cs with
    | nil => rfl
    | cons c cs =>
      exfalso
      have key : ∀ (l : List OCRCandidate) (groups : List TextGroup), groups ≠ [] →
          l.foldl addCandidate groups ≠ [] := by
        intro l
        induction l with
        | nil => intro groups hg; simpa using hg
        | cons x xs ih =>
          intro groups hg
          simp only [List.foldl_cons]
          apply ih
          unfold addCandidate
          by_cases hmem : groups.any (fun g => g.text = x.text)
          · simp only [hmem, if_true]
            simpa using hg
          · simp only [hmem, if_false, Bool.false_eq_true]
            simp
      have h0 : groupByText (c :: cs) = cs.foldl addCandidate (addCandidate [] c) := by
        simp [groupByText]
      rw [h0] at h
      exact key cs (addCandidate [] c) (by simp [addCandidate]) h
  · intro h; simp [h, groupByText]

end Voter

namespace Voter

/-- Elements of the count-sorted list dominate their tails in count. -/
lemma sorted_count (l : List VoteCandidate) :
    (l.mergeSort leCount).Pairwise (fun a b => b.count ≤ a.count) := by
  have h := List.sorted_mergeSort leCount_trans leCount_total l
  exact h.imp (by intro a b hab; simpa [leCount] using hab)

lemma sorted_avg (l : List VoteCandidate) :
    (l.mergeSort leAvg).Pairwise (fun a b => b.avgConfidence ≤ a.avgConfidence) := by
  have h := List.sorted_mergeSort leAvg_trans leAvg_total l
  exact h.imp (by intro a b hab; simpa [leAvg] using hab)

lemma sorted_max (l : List VoteCandidate) :
    (l.mergeSort leMax).Pairwise (fun a b => b.maxConfidence ≤ a.maxConfidence) := by
  have h := List.sorted_mergeSort leMax_trans leMax_total l
  exact h.imp (by intro a b hab; simpa [leMax] using hab)

lemma vote_guard_left {css : List (List OCRCandidate)}
    (h : voteCandidatesOf css.flatten ≠ []) : ¬ css.length = 0 := by
  intro h0
  apply h
  have hcss : css = [] := List.length_eq_zero.mp h0
  subst hcss
  simp [voteCandidatesOf, groupByText]

lemma vote_guard_right {css : List (List OCRCandidate)}
    (h : voteCandidatesOf css.flatten ≠ []) : ¬ (css.flatten).length = 0 := by
  intro h0
  apply h
  have hflat : css.flatten = [] := List.length_eq_zero.mp h0
  simp [voteCandidatesOf, (groupByText_nil_iff _).mpr hflat]

lemma ne_nil_of_mergeSort_cons {l : List VoteCandidate}
    {le : VoteCandidate → VoteCandidate → Bool} {v0 : VoteCandidate}
    {vrest : List VoteCandidate} (hs : l.mergeSort le = v0 :: vrest) : l ≠ [] := by
  intro h0
  rw [h0] at hs
  simp at hs

/-- Reduction of `vote` along the clear-frequency-winner branch. -/
lemma vote_path_frequency {css : List (List OCRCandidate)} {v0 : VoteCandidate}
    {vrest : List VoteCandidate}
    (hs : (voteCandidatesOf css.flatten).mergeSort leCount = v0 :: vrest)
    (hbranch : vrest = [] ∨ ∃ v1 rest1, vrest = v1 :: rest1 ∧ v0.count > v1.count) :
    (vote css).winner = v0.text ∧ (vote css).method = .frequency ∧
      (vote css).confidence = v0.avgConfidence := by
  have hne : voteCandidatesOf css.flatten ≠ [] := ne_nil_of_mergeSort_cons hs
  have hg1 := vote_guard_left hne
  have hg2 := vote_guard_right hne
  have hvof : (groupByText css.flatten).map toVoteCandidate = voteCandidatesOf css.flatten := rfl
  rcases hbranch with h | ⟨v1, rest1, hr, hcnt⟩
  · subst h
    simp only [vote, hg1, if_false, hg2, hvof, hs]
    exact ⟨trivial, trivial, trivial⟩
  · subst hr
    simp only [vote, hg1, if_false, hg2, hvof, hs, if_pos hcnt]
    exact ⟨trivial, trivial, trivial⟩

/-- Reduction of `vote` along the mean-confidence tie-break branch. -/
lemma vote_path_confidence {css : List (List OCRCandidate)} {v0 v1 : VoteCandidate}
    {rest1 : List VoteCandidate} {t0 : VoteCandidate} {trest : List VoteCandidate}
    (hs : (voteCandidatesOf css.flatten).mergeSort leCount = v0 :: v1 :: rest1)
    (hcnt : ¬ v0.count > v1.count)
    (ht : ((v0 :: v1 :: rest1).filter (fun c => c.count = v0.count)).mergeSort leAvg
          = t0 :: trest)
    (hbranch : trest = [] ∨ ∃ t1 rest2, trest = t1 :: rest2 ∧
      t0.avgConfidence > t1.avgConfidence) :
    (vote css).winner = t0.text ∧ (vote css).method = .confidence ∧
      (vote css).confidence = t0.avgConfidence := by
  have hne : voteCandidatesOf css.flatten ≠ [] := ne_nil_of_mergeSort_cons hs
  have hg1 := vote_guard_left hne
  have hg2 := vote_guard_right hne
  have hvof : (groupByText css.flatten).map toVoteCandidate = voteCandidatesOf css.flatten := rfl
  rcases hbranch with h | ⟨t1, rest2, hr, havg⟩
  · subst h
    simp only [vote, hg1, if_false, hg2, hvof, hs, if_neg hcnt, ht]
    exact ⟨trivial, trivial, trivial⟩
  · subst hr
    simp only [vote, hg1, if_false, hg2, hvof, hs, if_neg hcnt, ht, if_pos havg]
    exact ⟨trivial, trivial, trivial⟩

/-- Reduction of `vote` along the max-confidence tie-break branch. -/
lemma vote_path_tiebreak {css : List (List OCRCandidate)} {v0 v1 : VoteCandidate}
    {rest1 : List VoteCandidate} {t0 t1 : VoteCandidate} {rest2 : List VoteCandidate}
    (hs : (voteCandidatesOf css.flatten).mergeSort leCount = v0 :: v1 :: rest1)
    (hcnt : ¬ v0.count > v1.count)
    (ht : ((v0 :: v1 :: rest1).filter (fun c => c.count = v0.count)).mergeSort leAvg
          = t0 :: t1 :: rest2)
    (havg : ¬ t0.avgConfidence > t1.avgConfidence) :
    (vote css).winner = (((t0 :: t1 :: rest2).mergeSort leMax).headD t0).text ∧
      (vote css).method = .tiebreak ∧
      (vote css).confidence
        = (((t0 :: t1 :: rest2).mergeSort leMax).headD t0).avgConfidence := by
  have hne : voteCandidatesOf css.flatten ≠ [] := ne_nil_of_mergeSort_cons hs
  have hg1 := vote_guard_left hne
  have hg2 := vote_guard_right hne
  have hvof : (groupByText css.flatten).map toVoteCandidate = voteCandidatesOf css.flatten := rfl
  simp only [vote, hg1, if_false, hg2, hvof, hs, if_neg hcnt, ht, if_neg havg]
  exact ⟨trivial, trivial, trivial⟩

end Voter

namespace Voter

lemma mem_of_mergeSort_cons {l : List VoteCandidate}
    {le : VoteCandidate → VoteCandidate → Bool} {v0 : VoteCandidate}
    {vrest : List VoteCandidate} (hs : l.mergeSort le = v0 :: vrest) :
    v0 ∈ l ∧ ∀ x ∈ vrest, x ∈ l := by
  constructor
  · have : v0 ∈ v0 :: vrest := List.mem_cons_self _ _
    rw [← hs] at this
    exact List.mem_mergeSort.mp this
  · intro x hx
    have : x ∈ v0 :: vrest := List.mem_cons_of_mem _ hx
    rw [← hs] at this
    exact List.mem_mergeSort.mp this

lemma count_le_head {l : List VoteCandidate} {v0 : VoteCandidate}
    {vrest : List VoteCandidate} (hs : l.mergeSort leCount = v0 :: vrest) :
    ∀ x ∈ l, x.count ≤ v0.count := by
  intro x hx
  have hx' : x ∈ v0 :: vrest := by rw [← hs]; exact List.mem_mergeSort.mpr hx
  rcases List.mem_cons.mp hx' with h | h
  · subst h; exact le_refl _
  · have hp := sorted_count l
    rw [hs] at hp
    exact List.rel_of_pairwise_cons hp h

lemma avg_le_head {l : List VoteCandidate} {t0 : VoteCandidate}
    {trest : List VoteCandidate} (hs : l.mergeSort leAvg = t0 :: trest) :
    ∀ x ∈ l, x.avgConfidence ≤ t0.avgConfidence := by
  intro x hx
  have hx' : x ∈ t0 :: trest := by rw [← hs]; exact List.mem_mergeSort.mpr hx
  rcases List.mem_cons.mp hx' with h | h
  · subst h; exact le_refl _
  · have hp := sorted_avg l
    rw [hs] at hp
    exact List.rel_of_pairwise_cons hp h

lemma max_le_head {l : List VoteCandidate} {t0 : VoteCandidate}
    {trest : List VoteCandidate} (hs : l.mergeSort leMax = t0 :: trest) :
    ∀ x ∈ l, x.maxConfidence ≤ t0.maxConfidence := by
  intro x hx
  have hx' : x ∈ t0 :: trest := by rw [← hs]; exact List.mem_mergeSort.mpr hx
  rcases List.mem_cons.mp hx' with h | h
  · subst h; exact le_refl _
  · have hp := sorted_max l
    rw [hs] at hp
    exact List.rel_of_pairwise_cons hp h

/-- Among groups with pairwise-distinct texts, the head of the count-sort
is the unique strict count maximiser when one exists. -/
lemma head_count_eq_argmax {l : List VoteCandidate} {g v0 : VoteCandidate}
    {vrest : List VoteCandidate}
    (hs : l.mergeSort leCount = v0 :: vrest)
    (hg : g ∈ l)
    (hdom : ∀ x ∈ l, x.text ≠ g.text → x.count < g.count)
    (hinj : ∀ x ∈ l, x.text = g.text → x = g) :
    v0 = g := by
  have hv0 : v0 ∈ l := (mem_of_mergeSort_cons hs).1
  have hle : g.count ≤ v0.count := count_le_head hs g hg
  by_cases htext : v0.text = g.text
  · exact hinj v0 hv0 htext
  · have := hdom v0 hv0 htext
    omega

lemma head_avg_eq_argmax {l : List VoteCandidate} {g t0 : VoteCandidate}
    {trest : List VoteCandidate}
    (hs : l.mergeSort leAvg = t0 :: trest)
    (hg : g ∈ l)
    (hdom : ∀ x ∈ l, x.text ≠ g.text → x.avgConfidence < g.avgConfidence)
    (hinj : ∀ x ∈ l, x.text = g.text → x = g) :
    t0 = g := by
  have ht0 : t0 ∈ l := (mem_of_mergeSort_cons hs).1
  have hle : g.avgConfidence ≤ t0.avgConfidence := avg_le_head hs g hg
  by_cases htext : t0.text = g.text
  · exact hinj t0 ht0 htext
  · exact absurd hle (not_le.mpr (hdom t0 ht0 htext))

lemma head_max_eq_argmax {l : List VoteCandidate} {g w0 : VoteCandidate}
    {wrest : List VoteCandidate}
    (hs : l.mergeSort leMax = w0 :: wrest)
    (hg : g ∈ l)
    (hdom : ∀ x ∈ l, x.text ≠ g.text → x.maxConfidence < g.maxConfidence)
    (hinj : ∀ x ∈ l, x.text = g.text → x = g) :
    w0 = g := by
  have hw0 : w0 ∈ l := (mem_of_mergeSort_cons hs).1
  have hle : g.maxConfidence ≤ w0.maxConfidence := max_le_head hs g hg
  by_cases htext : w0.text = g.text
  · exact hinj w0 hw0 htext
  · exact absurd hle (not_le.mpr (hdom w0 hw0 htext))

/-- Two distinct groups attaining the maximal count force the two top
slots of the count-sort to carry that maximal count. -/
lemma count_top_two {l : List VoteCandidate} {g g₂ : VoteCandidate}
    (hg : g ∈ l) (hg2 : g₂ ∈ l) (hne : g₂ ≠ g)
    (hM : g₂.count = g.count) (hmax : ∀ x ∈ l, x.count ≤ g.count) :
    ∃ v0 v1 rest1, l.mergeSort leCount = v0 :: v1 :: rest1 ∧
      v0.count = g.count ∧ v1.count = g.count := by
  cases hs : l.mergeSort leCount with
  | nil =>
    exfalso
    have : g ∈ l.mergeSort leCount := List.mem_mergeSort.mpr hg
    rw [hs] at this
    simp at this
  | cons v0 srest =>
    cases srest with
    | nil =>
      exfalso
      have h1 : g ∈ l.mergeSort leCount := List.mem_mergeSort.mpr hg
      have h2 : g₂ ∈ l.mergeSort leCount := List.mem_mergeSort.mpr hg2
      rw [hs] at h1 h2
      simp at h1 h2
      exact hne (h2.trans h1.symm)
    | cons v1 rest1 =>
      refine ⟨v0, v1, rest1, rfl, ?_, ?_⟩
      · have hv0 : v0 ∈ l := (mem_of_mergeSort_cons hs).1
        have h1 := hmax v0 hv0
        have h2 := count_le_head hs g hg
        omega
      · have hp := sorted_count l
        rw [hs] at hp
        have hv1l : v1 ∈ l := (mem_of_mergeSort_cons hs).2 v1 (List.mem_cons_self _ _)
        have hub := hmax v1 hv1l
        have htail : ∀ x ∈ rest1, x.count ≤ v1.count := by
          intro x hx
          exact List.rel_of_pairwise_cons (List.Pairwise.of_cons hp) hx
        have key : ∀ y ∈ l, y.count = g.count → y ≠ v0 → v1.count = g.count := by
          intro y hyl hyc hyne
          have hy : y ∈ v0 :: v1 :: rest1 := by
            rw [← hs]; exact List.mem_mergeSort.mpr hyl
          rcases List.mem_cons.mp hy with h | h
          · exact absurd h hyne
          · rcases List.mem_cons.mp h with h' | h'
            · rw [← h']; exact hyc
            · have := htail y h'
              omega
        by_cases hgv0 : g = v0
        · exact key g₂ hg2 hM (fun h => hne (h.trans hgv0.symm))
        · exact key g hg rfl hgv0

/-- Two distinct groups attaining the maximal mean confidence force the
two top slots of the mean-confidence sort to carry that maximum. -/
lemma avg_top_two {l : List VoteCandidate} {a b : VoteCandidate}
    (ha : a ∈ l) (hb : b ∈ l) (hne : b ≠ a)
    (hM : b.avgConfidence = a.avgConfidence)
    (hmax : ∀ x ∈ l, x.avgConfidence ≤ a.avgConfidence) :
    ∃ t0 t1 rest2, l.mergeSort leAvg = t0 :: t1 :: rest2 ∧
      t0.avgConfidence = a.avgConfidence ∧ t1.avgConfidence = a.avgConfidence := by
  cases hs : l.mergeSort leAvg with
  | nil =>
    exfalso
    have : a ∈ l.mergeSort leAvg := List.mem_mergeSort.mpr ha
    rw [hs] at this
    simp at this
  | cons t0 srest =>
    cases srest with
    | nil =>
      exfalso
      have h1 : a ∈ l.mergeSort leAvg := List.mem_mergeSort.mpr ha
      have h2 : b ∈ l.mergeSort leAvg := List.mem_mergeSort.mpr hb
      rw [hs] at h1 h2
      simp at h1 h2
      exact hne (h2.trans h1.symm)
    | cons t1 rest2 =>
      refine ⟨t0, t1, rest2, rfl, ?_, ?_⟩
      · have ht0 : t0 ∈ l := (mem_of_mergeSort_cons hs).1
        exact le_antisymm (hmax t0 ht0) (avg_le_head hs a ha)
      · have hp := sorted_avg l
        rw [hs] at hp
        have ht1l : t1 ∈ l := (mem_of_mergeSort_cons hs).2 t1 (List.mem_cons_self _ _)
        have hub := hmax t1 ht1l
        have htail : ∀ x ∈ rest2, x.avgConfidence ≤ t1.avgConfidence := by
          intro x hx
          exact List.rel_of_pairwise_cons (List.Pairwise.of_cons hp) hx
        have key : ∀ y ∈ l, y.avgConfidence = a.avgConfidence → y ≠ t0 →
            t1.avgConfidence = a.avgConfidence := by
          intro y hyl hyc hyne
          have hy : y ∈ t0 :: t1 :: rest2 := by
            rw [← hs]; exact List.mem_mergeSort.mpr hyl
          rcases List.mem_cons.mp hy with h | h
          · exact absurd h hyne
          · rcases List.mem_cons.mp h with h' | h'
            · rw [← h', hyc]
            · exact le_antisymm hub (hyc ▸ htail y h')
        by_cases hav0 : a = t0
        · exact key b hb hM (fun h => hne (h.trans hav0.symm))
        · exact key a ha rfl hav0

/-- Stability of the count sort: the subsequence of groups at a fixed
count is unchanged by the (stable) sort. -/
lemma filter_count_mergeSort (M : Nat) (l : List VoteCandidate) :
    (l.mergeSort leCount).filter (fun c => c.count = M)
      = l.filter (fun c => c.count = M) := by
  have hpair : (l.filter (fun c => c.count = M)).Pairwise (fun a b => leCount a b = true) := by
    apply pairwise_of_mem
    intro a ha b hb
    have ha' := List.of_mem_filter ha
    have hb' := List.of_mem_filter hb
    simp only [decide_eq_true_eq] at ha' hb'
    simp [leCount, ha', hb']
  have hsub : List.Sublist (l.filter (fun c => c.count = M)) (l.mergeSort leCount) :=
    List.sublist_mergeSort leCount_trans leCount_total hpair (List.filter_sublist l)
  have hsub2 : List.Sublist (l.filter (fun c => c.count = M))
      ((l.mergeSort leCount).filter (fun c => c.count = M)) := by
    have h := List.Sublist.filter (fun c => decide (c.count = M)) hsub
    have hff : List.filter (fun c => decide (c.count = M))
        (List.filter (fun c => decide (c.count = M)) l)
        = List.filter (fun c => decide (c.count = M)) l := by
      simp
    rwa [hff] at h
  have hlen : ((l.mergeSort leCount).filter (fun c => c.count = M)).length
      = (l.filter (fun c => c.count = M)).length :=
    ((List.mergeSort_perm l leCount).filter (fun c => decide (c.count = M))).length_eq
  exact (List.Sublist.eq_of_length hsub2 hlen.symm).symm

/-- Sorting a list of groups with equal mean confidences is the identity. -/
lemma mergeSort_leAvg_const {l : List VoteCandidate}
    (h : ∀ a ∈ l, ∀ b ∈ l, a.avgConfidence = b.avgConfidence) :
    l.mergeSort leAvg = l :=
  List.mergeSort_of_sorted (pairwise_of_mem fun a ha b hb => by
    simp [leAvg, (h b hb a ha).le])

/-- Sorting a list of groups with equal max confidences is the identity. -/
lemma mergeSort_leMax_const {l : List VoteCandidate}
    (h : ∀ a ∈ l, ∀ b ∈ l, a.maxConfidence = b.maxConfidence) :
    l.mergeSort leMax = l :=
  List.mergeSort_of_sorted (pairwise_of_mem fun a ha b hb => by
    simp [leMax, (h b hb a ha).le])

end Voter

namespace Voter

/-- Claim C9: an empty `Voter.vote` input (no crops, or all per-crop
lists empty) yields the explicit empty result — empty winner text, zero
confidence, method `frequency`, empty vote tally and empty candidate
list — and no error is raised (the function is total). -/
theorem voter_vote_empty_input (css : List (List OCRCandidate))
    (h : css.flatten = []) :
    vote css = createEmptyResult ∧
      createEmptyResult =
        { winner := "", confidence := 0, votes := [], method := .frequency,
          candidates := [] } := by
  refine ⟨?_, rfl⟩
  unfold vote
  by_cases hc : css.length = 0
  · simp [hc]
  · simp [hc, h]

/-- Witness for `voter_vote_empty_input` at the concrete input `[[]]`. -/
theorem voter_vote_empty_input_witness :
    ([[]] : List (List OCRCandidate)).flatten = [] ∧
      vote [[]] = createEmptyResult := by
  refine ⟨rfl, ?_⟩
  exact (voter_vote_empty_input [[]] rfl).1

end Voter

namespace Voter

/-- Claim C1: for every collection of per-crop candidate lists whose
flattening is non-empty (equivalently, whose grouped vote-candidate list
contains a group), `Voter.vote` groups candidates by exact text and picks
the winner by the three-level tie-break: (1) a group whose count strictly
exceeds every other group's count wins with method `frequency`; (2) if the
top count is tied across two or more texts, the count-tied group with
strictly highest mean confidence wins with method `confidence`; (3) if the
top mean confidence is also tied, the count-tied group with strictly
highest max confidence wins with method `tiebreak`; (4) a tie surviving
all three levels resolves to the first-encountered count-tied group in
grouping order; and in every case the returned confidence equals the
winning group's mean confidence. -/
theorem voter_vote_three_level_tiebreak (css : List (List OCRCandidate)) :
    ((∀ g ∈ voteCandidatesOf css.flatten,
       (∀ x ∈ voteCandidatesOf css.flatten, x.text ≠ g.text → x.count < g.count) →
       (vote css).winner = g.text ∧ (vote css).method = .frequency ∧
         (vote css).confidence = g.avgConfidence)
  ∧ (∀ g ∈ voteCandidatesOf css.flatten,
       (∀ x ∈ voteCandidatesOf css.flatten, x.count ≤ g.count) →
       (∃ g₂ ∈ voteCandidatesOf css.flatten, g₂.text ≠ g.text ∧ g₂.count = g.count) →
       (∀ x ∈ voteCandidatesOf css.flatten, x.text ≠ g.text → x.count = g.count →
          x.avgConfidence < g.avgConfidence) →
       (vote css).winner = g.text ∧ (vote css).method = .confidence ∧
         (vote css).confidence = g.avgConfidence)
  ∧ (∀ g ∈ voteCandidatesOf css.flatten,
       (∀ x ∈ voteCandidatesOf css.flatten, x.count ≤ g.count) →
       (∃ a ∈ voteCandidatesOf css.flatten, ∃ b ∈ voteCandidatesOf css.flatten,
          a.text ≠ b.text ∧ a.count = g.count ∧ b.count = g.count ∧
          b.avgConfidence = a.avgConfidence ∧
          (∀ x ∈ voteCandidatesOf css.flatten, x.count = g.count →
             x.avgConfidence ≤ a.avgConfidence)) →
       (∀ x ∈ voteCandidatesOf css.flatten, x.text ≠ g.text → x.count = g.count →
          x.maxConfidence < g.maxConfidence) →
       (vote css).winner = g.text ∧ (vote css).method = .tiebreak ∧
         (vote css).confidence = g.avgConfidence)
  ∧ (∀ pre g post,
       voteCandidatesOf css.flatten = pre ++ g :: post →
       (∀ x ∈ pre, x.count ≠ g.count) →
       (∀ x ∈ voteCandidatesOf css.flatten, x.count ≤ g.count) →
       (∃ g₂ ∈ voteCandidatesOf css.flatten, g₂.text ≠ g.text ∧ g₂.count = g.count) →
       (∀ x ∈ voteCandidatesOf css.flatten, x.count = g.count →
          x.avgConfidence = g.avgConfidence ∧ x.maxConfidence = g.maxConfidence) →
       (vote css).winner = g.text ∧ (vote css).method = .tiebreak ∧
         (vote css).confidence = g.avgConfidence)) := by
  have hmemsort : ∀ {v0 : VoteCandidate} {vrest : List VoteCandidate},
      (voteCandidatesOf css.flatten).mergeSort leCount = v0 :: vrest →
      ∀ x ∈ v0 :: vrest, x ∈ voteCandidatesOf css.flatten := by
    intro v0 vrest hs x hx
    rw [← hs] at hx
    exact List.mem_mergeSort.mp hx
  refine ⟨?_, ?_, ?_, ?_⟩
  -- (1) strict frequency winner
  · intro g hg hdom
    cases hs : (voteCandidatesOf css.flatten).mergeSort leCount with
    | nil =>
      exfalso
      have hgms : g ∈ (voteCandidatesOf css.flatten).mergeSort leCount :=
        List.mem_mergeSort.mpr hg
      rw [hs] at hgms
      simp at hgms
    | cons v0 vrest =>
      have hv0 : v0 = g :=
        head_count_eq_argmax hs hg hdom
          (fun x hx ht => voteCandidatesOf_text_inj hx hg ht)
      subst hv0
      cases vrest with
      | nil => exact vote_path_frequency hs (Or.inl rfl)
      | cons v1 rest1 =>
        have hv1l : v1 ∈ voteCandidatesOf css.flatten :=
          hmemsort hs v1 (List.mem_cons_of_mem _ (List.mem_cons_self _ _))
        have hnd : (v0 :: v1 :: rest1).Nodup := by
          rw [← hs]
          exact (List.mergeSort_perm _ _).nodup_iff.mpr (voteCandidatesOf_nodup _)
        have hne : v1 ≠ v0 := by
          intro h
          rcases List.nodup_cons.mp hnd with ⟨hnotmem, _⟩
          exact hnotmem (h ▸ List.mem_cons_self _ _)
        have htx : v1.text ≠ v0.text := fun h =>
          hne (voteCandidatesOf_text_inj hv1l (hmemsort hs v0 (List.mem_cons_self _ _)) h)
        exact vote_path_frequency hs (Or.inr ⟨v1, rest1, rfl, hdom v1 hv1l htx⟩)
  -- (2) count tie broken by strictly highest mean confidence
  · intro g hg hmax hex hdomavg
    obtain ⟨g₂, hg2, htx2, hc2⟩ := hex
    have hne2 : g₂ ≠ g := fun h => htx2 (by rw [h])
    obtain ⟨v0, v1, rest1, hs, hv0c, hv1c⟩ := count_top_two hg hg2 hne2 hc2 hmax
    have hcntbranch : ¬ v0.count > v1.count := by omega
    have htiedmem : ∀ x ∈ (v0 :: v1 :: rest1).filter (fun c => c.count = v0.count),
        x ∈ voteCandidatesOf css.flatten ∧ x.count = g.count := by
      intro x hx
      rcases List.mem_filter.mp hx with ⟨hx1, hx2⟩
      simp only [decide_eq_true_eq] at hx2
      exact ⟨hmemsort hs x hx1, by omega⟩
    have hgtied : g ∈ (v0 :: v1 :: rest1).filter (fun c => c.count = v0.count) := by
      apply List.mem_filter.mpr
      refine ⟨?_, by simp [hv0c]⟩
      rw [← hs]
      exact List.mem_mergeSort.mpr hg
    cases ht : ((v0 :: v1 :: rest1).filter (fun c => c.count = v0.count)).mergeSort leAvg with
    | nil =>
      exfalso
      have hgms : g ∈ ((v0 :: v1 :: rest1).filter
          (fun c => c.count = v0.count)).mergeSort leAvg :=
        List.mem_mergeSort.mpr hgtied
      rw [ht] at hgms
      simp at hgms
    | cons t0 trest =>
      have ht0 : t0 = g := by
        apply head_avg_eq_argmax ht hgtied
        · intro x hx htx
          exact hdomavg x (htiedmem x hx).1 htx (htiedmem x hx).2
        · intro x hx htx
          exact voteCandidatesOf_text_inj (htiedmem x hx).1 hg htx
      subst ht0
      cases trest with
      | nil => exact vote_path_confidence hs hcntbranch ht (Or.inl rfl)
      | cons t1 rest2 =>
        have ht1mem : t1 ∈ (v0 :: v1 :: rest1).filter (fun c => c.count = v0.count) := by
          have : t1 ∈ t0 :: t1 :: rest2 :=
            List.mem_cons_of_mem _ (List.mem_cons_self _ _)
          rw [← ht] at this
          exact List.mem_mergeSort.mp this
        have hnd : (t0 :: t1 :: rest2).Nodup := by
          rw [← ht]
          apply (List.mergeSort_perm _ _).nodup_iff.mpr
          apply List.Nodup.filter
          have : (v0 :: v1 :: rest1).Nodup := by
            rw [← hs]
            exact (List.mergeSort_perm _ _).nodup_iff.mpr (voteCandidatesOf_nodup _)
          exact this
        have hne1 : t1 ≠ t0 := by
          intro h
          rcases List.nodup_cons.mp hnd with ⟨hnotmem, _⟩
          exact hnotmem (h ▸ List.mem_cons_self _ _)
        have htx1 : t1.text ≠ t0.text := fun h =>
          hne1 (voteCandidatesOf_text_inj (htiedmem t1 ht1mem).1 hg h)
        exact vote_path_confidence hs hcntbranch ht
          (Or.inr ⟨t1, rest2, rfl, hdomavg t1 (htiedmem t1 ht1mem).1 htx1 (htiedmem t1 ht1mem).2⟩)
  -- (3) count and mean tie broken by strictly highest max confidence
  · intro g hg hmax hex hdommax
    obtain ⟨a, hga, b, hgb, htxab, hac, hbc, havgab, htopavg⟩ := hex
    have hneab : b ≠ a := fun h => htxab (by rw [h])
    obtain ⟨v0, v1, rest1, hs, hv0c, hv1c⟩ :=
      count_top_two hga hgb hneab (by omega)
        (fun x hx => by have := hmax x hx; omega)
    have hv0g : v0.count = g.count := by omega
    have hv1g : v1.count = g.count := by omega
    have hcntbranch : ¬ v0.count > v1.count := by omega
    have htiedmem : ∀ x ∈ (v0 :: v1 :: rest1).filter (fun c => c.count = v0.count),
        x ∈ voteCandidatesOf css.flatten ∧ x.count = g.count := by
      intro x hx
      rcases List.mem_filter.mp hx with ⟨hx1, hx2⟩
      simp only [decide_eq_true_eq] at hx2
      exact ⟨hmemsort hs x hx1, by omega⟩
    have hmemtied : ∀ y ∈ voteCandidatesOf css.flatten, y.count = g.count →
        y ∈ (v0 :: v1 :: rest1).filter (fun c => c.count = v0.count) := by
      intro y hy hyc
      apply List.mem_filter.mpr
      refine ⟨?_, by simp [hyc, hv0g]⟩
      rw [← hs]
      exact List.mem_mergeSort.mpr hy
    have hatied := hmemtied a hga hac
    have hbtied := hmemtied b hgb hbc
    obtain ⟨t0, t1, rest2, ht, ht0avg, ht1avg⟩ :=
      avg_top_two hatied hbtied hneab havgab
        (fun x hx => htopavg x (htiedmem x hx).1 (htiedmem x hx).2)
    have havgbranch : ¬ t0.avgConfidence > t1.avgConfidence := by
      rw [ht0avg, ht1avg]
      exact lt_irrefl _
    have hgtied := hmemtied g hg rfl
    have hgtiedSorted : g ∈ t0 :: t1 :: rest2 := by
      rw [← ht]
      exact List.mem_mergeSort.mpr hgtied
    have hconcl := vote_path_tiebreak hs hcntbranch ht havgbranch
    cases hw : (t0 :: t1 :: rest2).mergeSort leMax with
    | nil =>
      exfalso
      have hgms : g ∈ (t0 :: t1 :: rest2).mergeSort leMax :=
        List.mem_mergeSort.mpr hgtiedSorted
      rw [hw] at hgms
      simp at hgms
    | cons w0 wrest =>
      have hmemsorted2 : ∀ x ∈ t0 :: t1 :: rest2,
          x ∈ voteCandidatesOf css.flatten ∧ x.count = g.count := by
        intro x hx
        rw [← ht] at hx
        exact htiedmem x (List.mem_mergeSort.mp hx)
      have hw0 : w0 = g := by
        apply head_max_eq_argmax hw hgtiedSorted
        · intro x hx htx
          exact hdommax x (hmemsorted2 x hx).1 htx (hmemsorted2 x hx).2
        · intro x hx htx
          exact voteCandidatesOf_text_inj (hmemsorted2 x hx).1 hg htx
      rw [hw] at hconcl
      simp only [List.headD_cons] at hconcl
      rw [hw0] at hconcl
      exact hconcl
  -- (4) full tie resolves to the first-encountered count-tied group
  · intro pre g post hsplit hprecnt hmax hex hconsts
    obtain ⟨g₂, hg2, htx2, hc2⟩ := hex
    have hg : g ∈ voteCandidatesOf css.flatten := by
      rw [hsplit]
      exact List.mem_append_right _ (List.mem_cons_self _ _)
    have hne2 : g₂ ≠ g := fun h => htx2 (by rw [h])
    obtain ⟨v0, v1, rest1, hs, hv0c, hv1c⟩ := count_top_two hg hg2 hne2 hc2 hmax
    have hcntbranch : ¬ v0.count > v1.count := by omega
    have htied : (v0 :: v1 :: rest1).filter (fun c => c.count = v0.count)
        = (voteCandidatesOf css.flatten).filter (fun c => c.count = v0.count) := by
      rw [← hs]
      exact filter_count_mergeSort v0.count _
    have hfil : (voteCandidatesOf css.flatten).filter (fun c => c.count = v0.count)
        = g :: post.filter (fun c => c.count = v0.count) := by
      rw [hsplit, List.filter_append]
      have hpre : pre.filter (fun c => c.count = v0.count) = [] := by
        apply List.filter_eq_nil_iff.mpr
        intro x hx
        simp only [decide_eq_true_eq]
        rw [hv0c]
        exact hprecnt x hx
      rw [hpre, List.filter_cons_of_pos (by simp [hv0c])]
      simp
    have htiedmem2 : ∀ x ∈ g :: post.filter (fun c => c.count = v0.count),
        x ∈ voteCandidatesOf css.flatten ∧ x.count = g.count := by
      intro x hx
      rw [← hfil] at hx
      rcases List.mem_filter.mp hx with ⟨hx1, hx2⟩
      simp only [decide_eq_true_eq] at hx2
      exact ⟨hx1, by omega⟩
    have hg2tied : g₂ ∈ g :: post.filter (fun c => c.count = v0.count) := by
      rw [← hfil]
      apply List.mem_filter.mpr
      exact ⟨hg2, by simp [hc2, hv0c]⟩
    have hg2post : g₂ ∈ post.filter (fun c => c.count = v0.count) := by
      rcases List.mem_cons.mp hg2tied with h | h
      · exact absurd h hne2
      · exact h
    cases hpf : post.filter (fun c => c.count = v0.count) with
    | nil =>
      exfalso
      rw [hpf] at hg2post
      simp at hg2post
    | cons p1 prest =>
      have hmembers : ∀ x ∈ g :: p1 :: prest,
          x ∈ voteCandidatesOf css.flatten ∧ x.count = g.count := by
        intro x hx
        apply htiedmem2
        rw [hpf]
        exact hx
      have hconstavg : ∀ x ∈ g :: p1 :: prest, ∀ y ∈ g :: p1 :: prest,
          x.avgConfidence = y.avgConfidence := by
        intro x hx y hy
        have hxc := (hconsts x (hmembers x hx).1 (hmembers x hx).2).1
        have hyc := (hconsts y (hmembers y hy).1 (hmembers y hy).2).1
        rw [hxc, hyc]
      have hconstmax : ∀ x ∈ g :: p1 :: prest, ∀ y ∈ g :: p1 :: prest,
          x.maxConfidence = y.maxConfidence := by
        intro x hx y hy
        have hxc := (hconsts x (hmembers x hx).1 (hmembers x hx).2).2
        have hyc := (hconsts y (hmembers y hy).1 (hmembers y hy).2).2
        rw [hxc, hyc]
      have ht : ((v0 :: v1 :: rest1).filter (fun c => c.count = v0.count)).mergeSort leAvg
          = g :: p1 :: prest := by
        rw [htied, hfil, hpf]
        exact mergeSort_leAvg_const hconstavg
      have hp1avg : p1.avgConfidence = g.avgConfidence :=
        (hconsts p1 (hmembers p1 (List.mem_cons_of_mem _ (List.mem_cons_self _ _))).1
          (hmembers p1 (List.mem_cons_of_mem _ (List.mem_cons_self _ _))).2).1
      have havgbranch : ¬ g.avgConfidence > p1.avgConfidence := by
        rw [hp1avg]
        exact lt_irrefl _
      have hconcl := vote_path_tiebreak hs hcntbranch ht havgbranch
      rw [mergeSort_leMax_const hconstmax] at hconcl
      simpa using hconcl

end Voter

namespace Voter

/-- Witness for `voter_vote_three_level_tiebreak`: two texts tied at
count 1, mean confidences 4 and 2, so "A" wins by the confidence level. -/
theorem voter_vote_three_level_tiebreak_witness :
    (vote [[{ text := "A", conf := 4 }, { text := "B", conf := 2 }]]).winner = "A"
    ∧ (vote [[{ text := "A", conf := 4 }, { text := "B", conf := 2 }]]).method
        = .confidence := by
  have heq : voteCandidatesOf
        ([[{ text := "A", conf := (4:ℚ) }, { text := "B", conf := 2 }]].flatten)
      = [toVoteCandidate { text := "A", count := 1, confidences := [4] },
         toVoteCandidate { text := "B", count := 1, confidences := [2] }] := rfl
  have hg : toVoteCandidate { text := "A", count := 1, confidences := [4] }
      ∈ voteCandidatesOf
        ([[{ text := "A", conf := (4:ℚ) }, { text := "B", conf := 2 }]].flatten) := by
    rw [heq]; exact List.mem_cons_self _ _
  have hmax : ∀ x ∈ voteCandidatesOf
        ([[{ text := "A", conf := (4:ℚ) }, { text := "B", conf := 2 }]].flatten),
      x.count ≤ (toVoteCandidate { text := "A", count := 1, confidences := [4] }).count := by
    intro x hx
    rw [heq] at hx
    rcases List.mem_cons.mp hx with rfl | hx
    · exact le_refl _
    · rcases List.mem_cons.mp hx with rfl | hx
      · simp [toVoteCandidate]
      · simp at hx
  have hex : ∃ g₂ ∈ voteCandidatesOf
        ([[{ text := "A", conf := (4:ℚ) }, { text := "B", conf := 2 }]].flatten),
      g₂.text ≠ (toVoteCandidate { text := "A", count := 1, confidences := [4] }).text ∧
      g₂.count = (toVoteCandidate { text := "A", count := 1, confidences := [4] }).count := by
    refine ⟨toVoteCandidate { text := "B", count := 1, confidences := [2] }, ?_, ?_, rfl⟩
    · rw [heq]; exact List.mem_cons_of_mem _ (List.mem_cons_self _ _)
    · simp [toVoteCandidate]
  have havg : ∀ x ∈ voteCandidatesOf
        ([[{ text := "A", conf := (4:ℚ) }, { text := "B", conf := 2 }]].flatten),
      x.text ≠ (toVoteCandidate { text := "A", count := 1, confidences := [4] }).text →
      x.count = (toVoteCandidate { text := "A", count := 1, confidences := [4] }).count →
      x.avgConfidence
        < (toVoteCandidate { text := "A", count := 1, confidences := [4] }).avgConfidence := by
    intro x hx htx hc
    rw [heq] at hx
    rcases List.mem_cons.mp hx with rfl | hx
    · simp [toVoteCandidate] at htx
    · rcases List.mem_cons.mp hx with rfl | hx
      · norm_num [toVoteCandidate, listMax]
      · simp at hx
  have h := (voter_vote_three_level_tiebreak
      [[{ text := "A", conf := 4 }, { text := "B", conf := 2 }]]).2.1
      (toVoteCandidate { text := "A", count := 1, confidences := [4] }) hg hmax hex havg
  exact ⟨h.1, h.2.1⟩

end Voter

/-! # Plate Validator (`Validator`, src/web/src/pipeline/OCRPrecomputed.ts)

JS strings are modelled as `List Char` (code points; all plate data is
in the Basic Multilingual Plane, where JS UTF-16 length equals code-point
count), so `plate.length`, `split`, `includes` and per-character checks
translate directly.  Human-readable messages stay Lean `String`s. -/

namespace Validator

/-- The validation mode tag. -/
inductive ValidationMode
  | strict
  | fallback
deriving DecidableEq

/-- The structured metadata attached to a passing validation
(`region/series/vehicleType/format` for strict,
`format/bengaliCharCount/hasSeparators` for fallback). -/
inductive VMeta
  | strictMeta (region series vehicleType : List Char)
  | fallbackMeta (bengaliCharCount : Nat) (hasSeparators : Bool)
deriving DecidableEq

/-- The `ValidationResult` record. -/
structure ValidationResult where
  valid : Bool
  mode : ValidationMode
  plate : List Char
  reasons : List String
  warnings : List String
  metadata : Option VMeta
deriving DecidableEq

/-- The `ValidationRules` allow-lists. -/
structure ValidationRules where
  regions : List (List Char)
  letters : List (List Char)
  digits : List (List Char)

/-- The constructor defaults of `Validator.strictRules`. -/
def defaultRules : ValidationRules :=
  { regions := ["ঢাকা", "চট্টগ্রাম", "খুলনা", "রাজশাহী", "বরিশাল", "সিলেট", "রংপুর",
      "ময়মনসিংহ"].map String.toList
    letters := ["সখী", "বয", "যায়র", "ঢাকা", "চট্ট", "খুল", "রাজ", "বরি", "সিল", "রং",
      "ময়"].map String.toList
    digits := ["০", "১", "২", "৩", "৪", "৫", "৬", "৭", "৮", "৯"].map String.toList }

/-- The `Validator.isBengaliChar`: code point in `[U+0980, U+09FF]`. -/
def isBengaliChar (c : Char) : Bool := 0x0980 ≤ c.toNat ∧ c.toNat ≤ 0x09FF

/-- The `Validator.isBengaliLetter`: the letter code-point ranges. -/
def isBengaliLetter (c : Char) : Bool :=
  (0x0985 ≤ c.toNat ∧ c.toNat ≤ 0x09B9) ∨
  (0x09BE ≤ c.toNat ∧ c.toNat ≤ 0x09CC) ∨
  (0x09D7 ≤ c.toNat ∧ c.toNat ≤ 0x09DC)

/-- The `Validator.isBengaliText`: the regex `/[ঀ-৿]/.test`. -/
def isBengaliText (s : List Char) : Bool := s.any isBengaliChar

/-- JS `String.prototype.trim` (whitespace modelled by `Char.isWhitespace`). -/
def jsTrim (s : List Char) : List Char :=
  ((s.dropWhile Char.isWhitespace).reverse.dropWhile Char.isWhitespace).reverse

/-- JS `String.prototype.split` with a single-character separator. -/
def splitOnChar (sep : Char) (l : List Char) : List (List Char) :=
  l.foldr
    (fun c acc =>
      match acc with
      | [] => [[c]]
      | cur :: rest => if c = sep then [] :: cur :: rest else (c :: cur) :: rest)
    [[]]

/-- The `Validator.inferVehicleType` (JS substring `includes` on the letter
series; infix occurrence on code points). -/
def inferVehicleType (letters : List Char) : List Char :=
  if List.IsInfix "সখী".toList letters then "Private Vehicle".toList
  else if List.IsInfix "বয".toList letters then "Commercial Vehicle".toList
  else if List.IsInfix "যায়র".toList letters then "Government Vehicle".toList
  else "Unknown".toList

end Validator

namespace Validator

/-- The message recording a wrong hyphen-separated part count. -/
def partsMsg (n : Nat) : String := s!"Expected 3 parts separated by hyphens, got {n}"

/-- The message counting the Bengali characters a fallback pass found. -/
def foundMsg (n : Nat) : String := s!"Found {n} Bengali characters"

/-- The `Validator.validateStrictFormat`: the plate must split on hyphens into
exactly region, letter series and digit series; the per-part reasons are
accumulated in source order (region, letters, digits), recording only the
first offending character of a part (the JS loop `break`s). -/
def validateStrictFormat (rules : ValidationRules) (plate : List Char) :
    Bool × List String × Option VMeta :=
  let parts := splitOnChar '-' plate
  match parts with
  | [region, letters, digits] =>
    let regionReasons :=
      if rules.regions.contains region then []
      else
        let regionStr := String.mk region
        [s!"Invalid region: {regionStr}"]
    let letterReasons :=
      if letters.length < 2 ∨ letters.length > 4 then
        let lettersLen := letters.length
        [s!"Letters part should be 2-4 characters, got {lettersLen}"]
      else
        match letters.find? (fun c => ¬ isBengaliLetter c) with
        | some c =>
          let ch := String.mk [c]
          [s!"Invalid letter character: {ch}"]
        | none => []
    let digitReasons :=
      if digits.length < 3 ∨ digits.length > 4 then
        let digitsLen := digits.length
        [s!"Digits part should be 3-4 characters, got {digitsLen}"]
      else
        match digits.find? (fun c => ¬ rules.digits.contains [c]) with
        | some c =>
          let ch := String.mk [c]
          [s!"Invalid digit character: {ch}"]
        | none => []
    let reasons := regionReasons ++ letterReasons ++ digitReasons
    if reasons.isEmpty then
      (true, ["Strict Bangla format validation passed"],
        some (.strictMeta region letters (inferVehicleType letters)))
    else (false, reasons, none)
  | _ => (false, [partsMsg parts.length], none)

/-- The `Validator.validateFallbackFormat`: length window `[3,20]`, at least
2 Bengali characters, and a separator advisory (recorded among the
returned reason strings, not failing the check) for long plates. -/
def validateFallbackFormat (plate : List Char) : Bool × List String × Option VMeta :=
  if plate.length < 3 ∨ plate.length > 20 then
    let len := plate.length
    (false, [s!"Plate length should be 3-20 characters, got {len}"], none)
  else
    let bengaliChars := plate.filter isBengaliChar
    if bengaliChars.length < 2 then
      (false, ["Insufficient Bengali characters for fallback validation"], none)
    else
      let hasSeparators : Bool := plate.contains '-' || plate.contains ' '
      let sepReasons :=
        if hasSeparators = false ∧ plate.length > 10 then
          ["Long plates should contain separators for readability"]
        else []
      let n := bengaliChars.length
      (true,
        sepReasons ++ ["Demo fallback validation passed", foundMsg n],
        some (.fallbackMeta n hasSeparators))

/-- The three fixed warning strings of a fallback pass. -/
def fallbackWarnings : List String :=
  ["Strict Bangla format not recognized",
   "Using demo fallback validation",
   "Production systems require strict format compliance"]

/-- The `Validator.validatePlate` (with the `demoFallbackEnabled` flag made an
explicit argument): empty/whitespace-only short-circuit, the non-Bengali
advisory, then the strict pass, then the fallback pass if enabled, else
the strict failure reasons. -/
def validatePlate (rules : ValidationRules) (demoFallbackEnabled : Bool)
    (plate : List Char) : ValidationResult :=
  if (jsTrim plate).length = 0 then
    { valid := false, mode := .strict, plate := plate,
      reasons := ["Empty or null plate text"], warnings := [], metadata := none }
  else
    -- The source first pushes a "No Bengali characters found" reason when
    -- the text has no Bengali character; every completed branch below then
    -- overwrites `result.reasons` wholesale, so only the strict branch's
    -- surviving warning list depends on that check.
    let warnings0 :=
      if ¬ isBengaliText plate then ["Plate contains non-Bengali characters"] else []
    let strictR := validateStrictFormat rules plate
    if strictR.1 then
      { valid := true, mode := .strict, plate := plate,
        reasons := ["Valid Bangla plate format"], warnings := warnings0,
        metadata := strictR.2.2 }
    else
      let fallbackR := validateFallbackFormat plate
      if demoFallbackEnabled ∧ fallbackR.1 then
        { valid := true, mode := .fallback, plate := plate,
          reasons := fallbackR.2.1, warnings := fallbackWarnings,
          metadata := fallbackR.2.2 }
      else
        { valid := false, mode := .strict, plate := plate,
          reasons := strictR.2.1,
          warnings := ["Plate format does not match Bangla standards"],
          metadata := none }

end Validator

namespace Validator

/-- The `jsTrim` yields the empty string exactly on whitespace-only input. -/
lemma jsTrim_eq_nil_iff {s : List Char} :
    jsTrim s = [] ↔ ∀ c ∈ s, c.isWhitespace := by
  unfold jsTrim
  constructor
  · intro h c hc
    have h2 : (s.dropWhile Char.isWhitespace).reverse.dropWhile Char.isWhitespace = [] :=
      List.reverse_eq_nil_iff.mp h
    have h4 : ∀ x ∈ s.dropWhile Char.isWhitespace, x.isWhitespace := by
      intro x hx
      exact List.dropWhile_eq_nil_iff.mp h2 x (List.mem_reverse.mpr hx)
    have h5 := List.takeWhile_append_dropWhile Char.isWhitespace s
    rw [← h5] at hc
    rcases List.mem_append.mp hc with h6 | h6
    · exact List.mem_takeWhile_imp h6
    · exact h4 c h6
  · intro h
    rw [List.dropWhile_eq_nil_iff.mpr h]
    rfl

/-- A character of the Bengali block is not JS whitespace. -/
lemma bengali_not_whitespace {c : Char} (hc : isBengaliChar c = true) :
    c.isWhitespace = false := by
  simp only [isBengaliChar, Bool.and_eq_true, decide_eq_true_eq] at hc
  rcases hc with ⟨h1, _⟩
  by_contra hw
  rw [Bool.not_eq_false] at hw
  simp [Char.isWhitespace] at hw
  rcases hw with ((h | h) | h) | h <;> (subst h; exact absurd h1 (by decide))

/-- Splitting a hyphen-free string returns the whole string as the single part. -/
lemma splitOnChar_eq_self {sep : Char} {l : List Char} (h : ∀ c ∈ l, c ≠ sep) :
    splitOnChar sep l = [l] := by
  induction l with
  | nil => rfl
  | cons c cs ih =>
    have hc : c ≠ sep := h c (List.mem_cons_self _ _)
    have ih' := ih (fun x hx => h x (List.mem_cons_of_mem _ hx))
    unfold splitOnChar at ih' ⊢
    rw [List.foldr_cons, ih']
    simp [hc]

/-- Claim C8: an empty or whitespace-only input makes `validatePlate`
immediately invalid with the empty-text reason, independently of the
fallback flag; neither the strict pass nor the fallback pass is applied
(the result carries no reason or metadata from either pass). -/
theorem validator_empty_or_whitespace_invalid (rules : ValidationRules)
    (demoFallbackEnabled : Bool) (plate : List Char)
    (h : ∀ c ∈ plate, c.isWhitespace) :
    validatePlate rules demoFallbackEnabled plate
      = { valid := false, mode := .strict, plate := plate,
          reasons := ["Empty or null plate text"], warnings := [],
          metadata := none } := by
  have htrim : jsTrim plate = [] := jsTrim_eq_nil_iff.mpr h
  unfold validatePlate
  rw [if_pos (by rw [htrim]; rfl)]

/-- Witness for `validator_empty_or_whitespace_invalid`: a two-space
input, with fallback both enabled and disabled. -/
theorem validator_empty_or_whitespace_invalid_witness :
    (∀ c ∈ [' ', ' '], c.isWhitespace) ∧
    (validatePlate defaultRules true [' ', ' ']).valid = false ∧
    (validatePlate defaultRules false [' ', ' ']).valid = false ∧
    (validatePlate defaultRules true [' ', ' ']).reasons = ["Empty or null plate text"] := by
  refine ⟨by decide, ?_, ?_, ?_⟩
  · rw [validator_empty_or_whitespace_invalid defaultRules true [' ', ' '] (by decide)]
  · rw [validator_empty_or_whitespace_invalid defaultRules false [' ', ' '] (by decide)]
  · rw [validator_empty_or_whitespace_invalid defaultRules true [' ', ' '] (by decide)]

end Validator

namespace Validator

/-- Claim C7: in the fallback pass (fallback enabled, strict pass
necessarily failing since the text has no hyphen), a text of length in
[3,20] with at least 2 Bengali characters that exceeds 10 characters and
contains neither hyphen nor space still validates: the missing-separator
violation is recorded as a non-fatal advisory among the result's reason
strings (not a hard failure), the result is `valid = true` with
`mode = fallback`, and the warnings are exactly the three statements that
strict validation was bypassed. -/
theorem validator_fallback_missing_separator (rules : ValidationRules)
    (plate : List Char)
    (h3 : 3 ≤ plate.length) (h20 : plate.length ≤ 20) (h10 : 10 < plate.length)
    (hbeng : 2 ≤ (plate.filter isBengaliChar).length)
    (hhyphen : plate.contains '-' = false)
    (hspace : plate.contains ' ' = false) :
    validatePlate rules true plate
      = { valid := true, mode := .fallback, plate := plate,
          reasons := ["Long plates should contain separators for readability",
            "Demo fallback validation passed",
            foundMsg (plate.filter isBengaliChar).length],
          warnings := fallbackWarnings,
          metadata := some (.fallbackMeta (plate.filter isBengaliChar).length false) }
      ∧ "Long plates should contain separators for readability"
          ∈ (validatePlate rules true plate).reasons
      ∧ (validatePlate rules true plate).valid = true := by
  have hexc : ∃ c ∈ plate, isBengaliChar c = true := by
    have hne : plate.filter isBengaliChar ≠ [] := by
      intro h0
      rw [h0] at hbeng
      simp at hbeng
    obtain ⟨c, hc⟩ := List.exists_mem_of_ne_nil _ hne
    exact ⟨c, (List.mem_filter.mp hc).1, (List.mem_filter.mp hc).2⟩
  have htrim : ¬ (jsTrim plate).length = 0 := by
    intro h0
    obtain ⟨c, hcp, hcb⟩ := hexc
    have hws := jsTrim_eq_nil_iff.mp (List.length_eq_zero.mp h0) c hcp
    rw [bengali_not_whitespace hcb] at hws
    exact absurd hws (by simp)
  have hnomem : ∀ c ∈ plate, c ≠ '-' := by
    intro c hc he
    subst he
    simp at hhyphen
    exact hhyphen hc
  have hsplit : splitOnChar '-' plate = [plate] := splitOnChar_eq_self hnomem
  have hstrict : validateStrictFormat rules plate
      = (false, [partsMsg (splitOnChar '-' plate).length], none) := by
    unfold validateStrictFormat
    rw [hsplit]
  have hsep : (plate.contains '-' || plate.contains ' ') = false := by
    rw [hhyphen, hspace]
    rfl
  have hfb : validateFallbackFormat plate
      = (true, ["Long plates should contain separators for readability",
          "Demo fallback validation passed",
          foundMsg (plate.filter isBengaliChar).length],
         some (.fallbackMeta (plate.filter isBengaliChar).length false)) := by
    unfold validateFallbackFormat
    rw [if_neg (by omega), if_neg (by omega), hsep]
    simp [h10]
  have hresult : validatePlate rules true plate
      = { valid := true, mode := .fallback, plate := plate,
          reasons := ["Long plates should contain separators for readability",
            "Demo fallback validation passed",
            foundMsg (plate.filter isBengaliChar).length],
          warnings := fallbackWarnings,
          metadata := some (.fallbackMeta (plate.filter isBengaliChar).length false) } := by
    unfold validatePlate
    rw [if_neg htrim]
    simp only [hstrict, hfb]
    rw [if_neg (by simp), if_pos (by simp)]
  refine ⟨hresult, ?_, ?_⟩
  · rw [hresult]
    exact List.mem_cons_self _ _
  · rw [hresult]

/-- Witness for `validator_fallback_missing_separator`: the 12-character
Bengali text formed by repeating "ঢাকা" three times, with no separator. -/
theorem validator_fallback_missing_separator_witness :
    (3 ≤ ("ঢাকাঢাকাঢাকা".toList).length
      ∧ ("ঢাকাঢাকাঢাকা".toList).length ≤ 20
      ∧ 10 < ("ঢাকাঢাকাঢাকা".toList).length
      ∧ 2 ≤ (("ঢাকাঢাকাঢাকা".toList).filter isBengaliChar).length
      ∧ ("ঢাকাঢাকাঢাকা".toList).contains '-' = false
      ∧ ("ঢাকাঢাকাঢাকা".toList).contains ' ' = false)
    ∧ (validatePlate defaultRules true ("ঢাকাঢাকাঢাকা".toList)).valid = true
    ∧ (validatePlate defaultRules true ("ঢাকাঢাকাঢাকা".toList)).mode = .fallback
    ∧ "Long plates should contain separators for readability"
        ∈ (validatePlate defaultRules true ("ঢাকাঢাকাঢাকা".toList)).reasons
    ∧ (validatePlate defaultRules true ("ঢাকাঢাকাঢাকা".toList)).warnings
        = fallbackWarnings := by
  have h := validator_fallback_missing_separator defaultRules ("ঢাকাঢাকাঢাকা".toList)
    (by decide) (by decide) (by decide) (by decide) (by decide) (by decide)
  refine ⟨⟨by decide, by decide, by decide, by decide, by decide, by decide⟩, ?_, ?_, ?_, ?_⟩
  · rw [h.1]
  · rw [h.1]
  · exact h.2.1
  · rw [h.1]

end Validator

/-! # Deduplicator (`Deduplicator.checkDuplicate`, src/unnamed/part_006)

The mutable `recentEvents` array is the explicit state.  `timestamp` is a
date string parsed with `new Date(...).getTime()`; its parsed value is
modelled as the integer field `timestampMs`, while `timeMs` is the
event's separate media-time field, exactly as the source keeps both. -/

namespace Dedup

/-- Event direction (`status` in the source). -/
inductive EventStatus
  | ENTRY
  | EXIT
deriving DecidableEq

/-- The fields of `ANPREvent` that `Deduplicator` reads. -/
structure ANPREvent where
  id : Nat
  plate : String
  status : EventStatus
  timestampMs : ℤ
  timeMs : ℤ
deriving DecidableEq

/-- The constructor defaults of `Deduplicator`. -/
structure DedupConfig where
  maxHistorySize : Nat
  sameDirectionWindow : ℤ
  oppositeDirectionWindow : ℤ

/-- Default configuration: history cap 100, same-direction window 5
minutes, opposite-direction window 3 minutes (in milliseconds). -/
def defaultDedupConfig : DedupConfig :=
  { maxHistorySize := 100
    sameDirectionWindow := 5 * 60 * 1000
    oppositeDirectionWindow := 3 * 60 * 1000 }

/-- The `DeduplicationResult` record. -/
structure DeduplicationResult where
  isDuplicate : Bool
  reason : String
  previousEvent : Option ANPREvent
  timeDiff : Option ℤ
deriving DecidableEq

/-- The time-window filter of `checkDuplicate`: same-direction pairs use
the 5-minute window, opposite-direction pairs the 3-minute window, on the
absolute difference of the parsed timestamps. -/
def withinWindow (cfg : DedupConfig) (newEvent e : ANPREvent) : Bool :=
  let timeDiff := |newEvent.timestampMs - e.timestampMs|
  if e.status = newEvent.status then timeDiff ≤ cfg.sameDirectionWindow
  else timeDiff ≤ cfg.oppositeDirectionWindow

/-- The `Deduplicator.addToHistory`: append, then drop the oldest entry when
the cap is exceeded (`Array.prototype.shift`). -/
def addToHistory (cfg : DedupConfig) (recentEvents : List ANPREvent)
    (e : ANPREvent) : List ANPREvent :=
  let h := recentEvents ++ [e]
  if h.length > cfg.maxHistorySize then h.drop 1 else h

/-- The `Deduplicator.checkDuplicate`, returning the result together with the
updated history.  `Math.round(timeDiff / 1000)` in the reason string is
JS rounding, i.e. `⌊q + 1/2⌋`. -/
def checkDuplicate (cfg : DedupConfig) (recentEvents : List ANPREvent)
    (newEvent : ANPREvent) : DeduplicationResult × List ANPREvent :=
  let relevantEvents := recentEvents.filter (withinWindow cfg newEvent)
  match relevantEvents.find? (fun e => e.plate = newEvent.plate) with
  | some duplicateEvent =>
    let timeDiff := |newEvent.timeMs - duplicateEvent.timeMs|
    let rounded : ℤ := ⌊(timeDiff : ℚ) / 1000 + 1 / 2⌋
    ({ isDuplicate := true
       reason := s!"Duplicate plate detected within {rounded}s"
       previousEvent := some duplicateEvent
       timeDiff := some timeDiff },
     recentEvents)
  | none =>
    ({ isDuplicate := false
       reason := "No duplicate detected"
       previousEvent := none
       timeDiff := none },
     addToHistory cfg recentEvents newEvent)

end Dedup

namespace Dedup

/-- Claim C6: (1) a history event with the same plate text, the same
direction and parsed timestamps at most the same-direction window apart
makes `checkDuplicate` return `isDuplicate = true`, referencing a prior
matching in-window event whose media-time gap to the new event is the
reported `timeDiff`, and leaving the history unchanged; (2) if every
same-plate history event has the opposite direction and lies outside the
opposite-direction window (e.g. submitted at T+4min against a 3-minute
window), `checkDuplicate` returns `isDuplicate = false` and appends the
event to the history; (3) the history is bounded: below the cap the event
is appended, at the cap (cap ≥ 1) the oldest entry is evicted first. -/
theorem dedup_direction_windows_and_bounded_history (cfg : DedupConfig)
    (recentEvents : List ANPREvent) (newEvent : ANPREvent) :
    ((∃ e ∈ recentEvents, e.plate = newEvent.plate ∧ e.status = newEvent.status ∧
        |newEvent.timestampMs - e.timestampMs| ≤ cfg.sameDirectionWindow) →
      ∃ e₀ ∈ recentEvents, e₀.plate = newEvent.plate ∧
        withinWindow cfg newEvent e₀ = true ∧
        (checkDuplicate cfg recentEvents newEvent).1.isDuplicate = true ∧
        (checkDuplicate cfg recentEvents newEvent).1.previousEvent = some e₀ ∧
        (checkDuplicate cfg recentEvents newEvent).1.timeDiff
          = some |newEvent.timeMs - e₀.timeMs| ∧
        (checkDuplicate cfg recentEvents newEvent).2 = recentEvents)
  ∧ ((∀ e ∈ recentEvents, e.plate = newEvent.plate →
        e.status ≠ newEvent.status ∧
        cfg.oppositeDirectionWindow < |newEvent.timestampMs - e.timestampMs|) →
      (checkDuplicate cfg recentEvents newEvent).1.isDuplicate = false ∧
      (checkDuplicate cfg recentEvents newEvent).2
        = addToHistory cfg recentEvents newEvent)
  ∧ (recentEvents.length < cfg.maxHistorySize →
      addToHistory cfg recentEvents newEvent = recentEvents ++ [newEvent])
  ∧ (recentEvents.length = cfg.maxHistorySize → 0 < cfg.maxHistorySize →
      addToHistory cfg recentEvents newEvent
        = recentEvents.drop 1 ++ [newEvent]) := by
  refine ⟨?_, ?_, ?_, ?_⟩
  · intro ⟨e, he, hp, hst, hwin⟩
    have hew : withinWindow cfg newEvent e = true := by
      unfold withinWindow
      rw [if_pos hst]
      simpa using hwin
    have hmemf : e ∈ recentEvents.filter (withinWindow cfg newEvent) :=
      List.mem_filter.mpr ⟨he, hew⟩
    have hsome : ((recentEvents.filter (withinWindow cfg newEvent)).find?
        (fun x => x.plate = newEvent.plate)).isSome = true :=
      List.find?_isSome.mpr ⟨e, hmemf, by simp [hp]⟩
    obtain ⟨e₀, hfind⟩ := Option.isSome_iff_exists.mp hsome
    have he₀f : e₀ ∈ recentEvents.filter (withinWindow cfg newEvent) :=
      List.mem_of_find?_eq_some hfind
    have he₀p : e₀.plate = newEvent.plate := by
      have := List.find?_some hfind
      simpa using this
    refine ⟨e₀, (List.mem_filter.mp he₀f).1, he₀p, (List.mem_filter.mp he₀f).2,
      ?_, ?_, ?_, ?_⟩ <;>
      simp only [checkDuplicate, hfind]
  · intro h
    have hnone : (recentEvents.filter (withinWindow cfg newEvent)).find?
        (fun x => x.plate = newEvent.plate) = none := by
      apply List.find?_eq_none.mpr
      intro x hx
      rcases List.mem_filter.mp hx with ⟨hx1, hx2⟩
      simp only [decide_eq_true_eq]
      intro hxp
      rcases h x hx1 hxp with ⟨hst, hwin⟩
      unfold withinWindow at hx2
      rw [if_neg hst] at hx2
      simp only [decide_eq_true_eq] at hx2
      omega
    exact ⟨by simp only [checkDuplicate, hnone], by simp only [checkDuplicate, hnone]⟩
  · intro h
    unfold addToHistory
    rw [if_neg (by simp; omega)]
  · intro h hpos
    unfold addToHistory
    rw [if_pos (by simp; omega)]
    exact List.drop_append_of_le_length (by omega)

/-- Concrete events used by the deduplication witness. -/
def wPrior : ANPREvent := { id := 1, plate := "P1", status := .ENTRY, timestampMs := 0, timeMs := 0 }

/-- Same-direction resubmission of `wPrior` at T+60 s. -/
def wSameDir : ANPREvent :=
  { id := 2, plate := "P1", status := .ENTRY, timestampMs := 60000, timeMs := 60000 }

/-- Opposite-direction submission of `wPrior` at T+4 min. -/
def wOppDir : ANPREvent :=
  { id := 3, plate := "P1", status := .EXIT, timestampMs := 240000, timeMs := 240000 }

/-- Witness for `dedup_direction_windows_and_bounded_history`: one history
event; a same-direction resubmission 60 s later is flagged with the 60 s
gap, and an opposite-direction submission at T+4min (against the 3-minute
opposite-direction window) is not flagged. -/
theorem dedup_direction_windows_witness :
    (∃ e ∈ [wPrior], e.plate = "P1" ∧ e.status = EventStatus.ENTRY ∧
        |(60000 : ℤ) - e.timestampMs| ≤ defaultDedupConfig.sameDirectionWindow)
    ∧ (checkDuplicate defaultDedupConfig [wPrior] wSameDir).1.isDuplicate = true
    ∧ (checkDuplicate defaultDedupConfig [wPrior] wSameDir).1.timeDiff = some 60000
    ∧ (checkDuplicate defaultDedupConfig [wPrior] wOppDir).1.isDuplicate = false := by
  have hhyp : ∃ e ∈ [wPrior], e.plate = wSameDir.plate ∧ e.status = wSameDir.status ∧
      |wSameDir.timestampMs - e.timestampMs| ≤ defaultDedupConfig.sameDirectionWindow :=
    ⟨wPrior, List.mem_cons_self _ _, rfl, rfl, by decide⟩
  obtain ⟨e₀, he₀, hp, hw, hdup, hprev, htd, hhist⟩ :=
    (dedup_direction_windows_and_bounded_history defaultDedupConfig [wPrior] wSameDir).1 hhyp
  have he₀eq : e₀ = wPrior := by
    rcases List.mem_cons.mp he₀ with h | h
    · exact h
    · simp at h
  refine ⟨⟨wPrior, List.mem_cons_self _ _, rfl, rfl, by decide⟩, hdup, ?_, ?_⟩
  · rw [htd, he₀eq]
    decide
  · exact ((dedup_direction_windows_and_bounded_history defaultDedupConfig
      [wPrior] wOppDir).2.1
      (by
        intro e he hpl
        rcases List.mem_cons.mp he with h | h
        · subst h
          exact ⟨by decide, by decide⟩
        · simp at h)).1

end Dedup

/-! # Session Aggregator (`SessionManager`, src/unnamed/part_007)

The `sessions` JS `Map` keyed by the track id string is modelled as an
insertion-ordered list of sessions whose `trackId` fields act as the
keys; keyed lookup is `find?`, keyed in-place mutation is `setSession`,
keyed deletion is a filter.  Evidence crops are identified by their crop
id (the pixel payload of `CropImage` plays no role here).  `Date.now()`
in `handleTrackLost` is surfaced as the explicit `nowMs` argument. -/

namespace SessionM

/-- Session status. -/
inductive SessionStatus
  | active
  | finalized
deriving DecidableEq

/-- The `Session` record (crops listed by crop id). -/
structure Session where
  trackId : Nat
  startMs : ℤ
  endMs : ℤ
  crops : List Nat
  status : SessionStatus
deriving DecidableEq

/-- The `SessionManager` configuration. -/
structure SessionConfig where
  maxSessionFrames : Nat
  disappearThreshold : ℤ
  minSessionFrames : Nat

/-- Constructor defaults: cap 20 crops, 5000 ms disappearance, floor 3. -/
def defaultSessionConfig : SessionConfig :=
  { maxSessionFrames := 20, disappearThreshold := 5000, minSessionFrames := 3 }

/-- Keyed lookup in the session map. -/
def findSession (sessions : List Session) (trackId : Nat) : Option Session :=
  sessions.find? (fun s => s.trackId = trackId)

/-- Keyed in-place mutation of the session map entry. -/
def setSession (sessions : List Session) (s : Session) : List Session :=
  sessions.map (fun u => if u.trackId = s.trackId then s else u)

/-- The `SessionManager.createSession`. -/
def createSession (sessions : List Session) (trackId : Nat) (timeMs : ℤ)
    (cropImage : Option Nat) : List Session :=
  sessions ++ [{ trackId := trackId, startMs := timeMs, endMs := timeMs,
                 crops := cropImage.toList, status := .active }]

/-- The `SessionManager.finalizeSession`: `null` for a missing or non-active
session; a session under the minimum-evidence floor is deleted and `null`
returned; otherwise the session is marked finalized and returned. -/
def finalizeSession (cfg : SessionConfig) (sessions : List Session)
    (trackId : Nat) : Option Session × List Session :=
  match findSession sessions trackId with
  | none => (none, sessions)
  | some s =>
    if s.status ≠ .active then (none, sessions)
    else if s.crops.length < cfg.minSessionFrames then
      (none, sessions.filter (fun u => u.trackId ≠ trackId))
    else
      let s2 := { s with status := SessionStatus.finalized }
      (some s2, setSession sessions s2)

/-- The `SessionManager.updateSession`: extend the end time, append the crop
when present, and eagerly finalize at the capacity cap. -/
def updateSession (cfg : SessionConfig) (sessions : List Session)
    (trackId : Nat) (timeMs : ℤ) (cropImage : Option Nat) : List Session :=
  match findSession sessions trackId with
  | none => sessions
  | some s =>
    let s1 := { s with endMs := timeMs }
    match cropImage with
    | none => setSession sessions s1
    | some c =>
      let s2 := { s1 with crops := s1.crops ++ [c] }
      let sessions2 := setSession sessions s2
      if s2.crops.length ≥ cfg.maxSessionFrames then
        (finalizeSession cfg sessions2 trackId).2
      else sessions2

/-- The `SessionManager.update` (the track argument contributes only its id;
the detection argument is unused by the source). -/
def update (cfg : SessionConfig) (sessions : List Session) (trackId : Nat)
    (timeMs : ℤ) (cropImage : Option Nat) : List Session :=
  if (findSession sessions trackId).isSome then
    updateSession cfg sessions trackId timeMs cropImage
  else
    createSession sessions trackId timeMs cropImage

/-- The `SessionManager.handleTrackLost` (wall clock passed explicitly). -/
def handleTrackLost (cfg : SessionConfig) (sessions : List Session)
    (trackId : Nat) (lastSeen nowMs : ℤ) : List Session :=
  match findSession sessions trackId with
  | none => sessions
  | some s =>
    if s.status ≠ .active then sessions
    else if nowMs - lastSeen ≥ cfg.disappearThreshold then
      (finalizeSession cfg sessions trackId).2
    else sessions

end SessionM

namespace SessionM

/-- With unique keys, looking up a member session by its id finds it. -/
lemma findSession_eq_of_mem {sessions : List Session} {s : Session}
    (hkeys : (sessions.map (fun u => u.trackId)).Nodup) (hmem : s ∈ sessions) :
    findSession sessions s.trackId = some s := by
  induction sessions with
  | nil => cases hmem
  | cons x xs ih =>
    rcases List.mem_cons.mp hmem with rfl | hmem2
    · unfold findSession
      rw [List.find?_cons_of_pos _ (by simp)]
    · have hkeys2 : (x.trackId :: xs.map (fun u => u.trackId)).Nodup := by
        simpa using hkeys
      have hx : ¬ x.trackId = s.trackId := by
        intro he
        exact (List.nodup_cons.mp hkeys2).1 (he ▸ List.mem_map_of_mem _ hmem2)
      unfold findSession
      rw [List.find?_cons_of_neg _ (by simpa using hx)]
      exact ih (List.nodup_cons.mp hkeys2).2 hmem2

/-- Keyed replacement never changes the key sequence of the map. -/
lemma setSession_keys (sessions : List Session) (s : Session) :
    (setSession sessions s).map (fun u => u.trackId)
      = sessions.map (fun u => u.trackId) := by
  unfold setSession
  rw [List.map_map]
  apply List.map_congr_left
  intro u _
  by_cases h : u.trackId = s.trackId <;> simp [h]

/-- Claim C5: an active session below the minimum-evidence floor is
discarded at finalization: `finalizeSession` deletes it from the session
map and returns `null`, so the session never reaches status `finalized`
and its identity no longer resolves in the map (no event can be produced
from it). -/
theorem session_min_floor_discard (cfg : SessionConfig)
    (sessions : List Session) (s : Session)
    (hkeys : (sessions.map (fun u => u.trackId)).Nodup)
    (hmem : s ∈ sessions) (hactive : s.status = .active)
    (hfloor : s.crops.length < cfg.minSessionFrames) :
    (finalizeSession cfg sessions s.trackId).1 = none ∧
    (finalizeSession cfg sessions s.trackId).2
      = sessions.filter (fun u => u.trackId ≠ s.trackId) ∧
    findSession (finalizeSession cfg sessions s.trackId).2 s.trackId = none := by
  have hfind := findSession_eq_of_mem hkeys hmem
  have hfz : finalizeSession cfg sessions s.trackId
      = (none, sessions.filter (fun u => u.trackId ≠ s.trackId)) := by
    unfold finalizeSession
    rw [hfind]
    simp [hactive, hfloor]
  refine ⟨by rw [hfz], by rw [hfz], ?_⟩
  rw [hfz]
  apply List.find?_eq_none.mpr
  intro x hx
  have := List.of_mem_filter hx
  simpa using this

/-- The two-crop active session used by the discard witness. -/
def sessShort : Session :=
  { trackId := 7, startMs := 0, endMs := 10, crops := [1, 2], status := .active }

/-- Witness for `session_min_floor_discard`: a two-crop active session
against the default floor of 3 is deleted and yields `null`. -/
theorem session_min_floor_discard_witness :
    (([sessShort].map (fun u => u.trackId)).Nodup
      ∧ sessShort.crops.length < defaultSessionConfig.minSessionFrames)
    ∧ (finalizeSession defaultSessionConfig [sessShort] sessShort.trackId).1 = none
    ∧ (finalizeSession defaultSessionConfig [sessShort] sessShort.trackId).2 = [] := by
  have h := session_min_floor_discard defaultSessionConfig [sessShort] sessShort
    (by decide) (List.mem_cons_self _ _) rfl (by decide)
  refine ⟨⟨by decide, by decide⟩, h.1, ?_⟩
  rw [h.2.1]
  decide

end SessionM

namespace SessionM

/-- A small capacity configuration (`maxSessionFrames = 3`,
`minSessionFrames = 3`) reaching finalization quickly. -/
def cfg3 : SessionConfig :=
  { maxSessionFrames := 3, disappearThreshold := 5000, minSessionFrames := 3 }

/-- The session map after three crop-bearing updates for track 1 under
`cfg3`: the third crop reaches the capacity cap and eagerly finalizes. -/
def sessionsAfter3 : List Session :=
  update cfg3 (update cfg3 (update cfg3 [] 1 0 (some 11)) 1 10 (some 12)) 1 20 (some 13)

/-- The same map after a fourth crop-bearing update for track 1, arriving
after the session was finalized. -/
def sessionsAfter4 : List Session := update cfg3 sessionsAfter3 1 99 (some 14)

/-- Counterexample to claim C3: after the capacity-cap finalization
(status `finalized`, `endMs = 20`, three crops), a later `update` call
for the same track identity mutates the finalized session object — its
end time is extended to 99 and a fourth crop is appended — instead of
leaving it unchanged or opening a new session object. -/
theorem session_finalized_mutated_counterexample :
    (findSession sessionsAfter3 1).map (fun s => (s.status, s.endMs, s.crops.length))
        = some (.finalized, 20, 3)
    ∧ (findSession sessionsAfter4 1).map (fun s => (s.status, s.endMs, s.crops.length))
        = some (.finalized, 99, 4)
    ∧ sessionsAfter4.length = 1 := by
  decide

/-- The `finalizeSession` is the identity (returning `null`) on a session
that is already finalized. -/
lemma finalizeSession_of_finalized {cfg : SessionConfig}
    {sessions : List Session} {s : Session}
    (hkeys : (sessions.map (fun u => u.trackId)).Nodup)
    (hmem : s ∈ sessions) (hfin : s.status = .finalized) :
    finalizeSession cfg sessions s.trackId = (none, sessions) := by
  have hfind := findSession_eq_of_mem hkeys hmem
  unfold finalizeSession
  rw [hfind]
  simp [hfin]

/-- Reduction of a crop-bearing `updateSession` at a found session. -/
lemma updateSession_found {cfg : SessionConfig} {sessions : List Session}
    {trackId : Nat} {s : Session} {t : ℤ} {c : Nat}
    (hfind : findSession sessions trackId = some s) :
    updateSession cfg sessions trackId t (some c)
      = if (s.crops ++ [c]).length ≥ cfg.maxSessionFrames
        then (finalizeSession cfg
          (setSession sessions { s with endMs := t, crops := s.crops ++ [c] }) trackId).2
        else setSession sessions { s with endMs := t, crops := s.crops ++ [c] } := by
  unfold updateSession
  rw [hfind]

/-- Claim C3 (amended): once a session is finalized it is never
re-finalized — `finalizeSession` returns `null` and leaves the map
unchanged, and `handleTrackLost` leaves the map unchanged — and no new
session object is ever opened for its identity; but a later `update` call
for the same track identity does mutate the finalized session object in
place: its end time is set to the new sample time and, when a crop is
supplied, the crop is appended to its evidence list. -/
theorem session_finalized_behavior (cfg : SessionConfig)
    (sessions : List Session) (s : Session)
    (hkeys : (sessions.map (fun u => u.trackId)).Nodup)
    (hmem : s ∈ sessions) (hfin : s.status = .finalized) :
    finalizeSession cfg sessions s.trackId = (none, sessions)
  ∧ (∀ lastSeen nowMs, handleTrackLost cfg sessions s.trackId lastSeen nowMs = sessions)
  ∧ (∀ t, update cfg sessions s.trackId t none
        = setSession sessions { s with endMs := t })
  ∧ (∀ t c, update cfg sessions s.trackId t (some c)
        = setSession sessions { s with endMs := t, crops := s.crops ++ [c] }) := by
  have hfind := findSession_eq_of_mem hkeys hmem
  refine ⟨finalizeSession_of_finalized hkeys hmem hfin, ?_, ?_, ?_⟩
  · intro lastSeen nowMs
    unfold handleTrackLost
    rw [hfind]
    simp [hfin]
  · intro t
    unfold update
    rw [if_pos (by rw [hfind]; rfl)]
    unfold updateSession
    rw [hfind]
  · intro t c
    unfold update
    rw [if_pos (by rw [hfind]; rfl)]
    rw [updateSession_found hfind]
    by_cases hcap : (s.crops ++ [c]).length ≥ cfg.maxSessionFrames
    · rw [if_pos hcap]
      have hkeys2 : ((setSession sessions
          { s with endMs := t, crops := s.crops ++ [c] }).map
            (fun u => u.trackId)).Nodup := by
        rw [setSession_keys]
        exact hkeys
      have hmem2 : ({ s with endMs := t, crops := s.crops ++ [c] } : Session)
          ∈ setSession sessions { s with endMs := t, crops := s.crops ++ [c] } := by
        unfold setSession
        apply List.mem_map.mpr
        exact ⟨s, hmem, by simp⟩
      have h := @finalizeSession_of_finalized cfg _ _ hkeys2 hmem2 (by simpa using hfin)
      exact congrArg Prod.snd h
    · rw [if_neg hcap]

end SessionM

namespace SessionM

/-- The finalized session used by the behaviour witness. -/
def sessFinal : Session :=
  { trackId := 1, startMs := 0, endMs := 20, crops := [11, 12, 13], status := .finalized }

/-- Witness for `session_finalized_behavior` at a concrete finalized
session: re-finalization yields `null` and no change, while a later
crop-bearing update mutates the finalized session in place. -/
theorem session_finalized_behavior_witness :
    (([sessFinal].map (fun u => u.trackId)).Nodup
       ∧ sessFinal ∈ [sessFinal] ∧ sessFinal.status = .finalized)
    ∧ finalizeSession defaultSessionConfig [sessFinal] sessFinal.trackId
        = (none, [sessFinal])
    ∧ update defaultSessionConfig [sessFinal] sessFinal.trackId 99 (some 14)
        = setSession [sessFinal]
            { sessFinal with endMs := 99, crops := sessFinal.crops ++ [14] } := by
  have h := session_finalized_behavior defaultSessionConfig [sessFinal] sessFinal
    (by decide) (List.mem_cons_self _ _) rfl
  exact ⟨⟨by decide, List.mem_cons_self _ _, rfl⟩, h.1, h.2.2.2 99 14⟩

end SessionM

/-! # Tracker (`TrackerSimple`, src/unnamed/part_007)

The `tracks` JS `Map` keyed by `String(track.id)` is modelled as an
insertion-ordered list of tracks keyed by their numeric `id`; in-place
mutation of a map entry is keyed replacement.  Box coordinates and
confidences are exact rationals, times are integer milliseconds.
Detections are stamped with a track identity by storing a stamped copy
(the source mutates the aliased `detection` object after storing it, so
the stored reference carries the stamp). -/

namespace Tracker

/-- Detection kind. -/
inductive DetType
  | vehicle
  | plate
deriving DecidableEq

/-- An axis-aligned box `[x1, y1, x2, y2]`. -/
structure BBox where
  x1 : ℚ
  y1 : ℚ
  x2 : ℚ
  y2 : ℚ
deriving DecidableEq

/-- The fields of `Detection` the tracker reads and writes. -/
structure Detection where
  type : DetType
  bbox : BBox
  conf : ℚ
  trackId : Option Nat
deriving DecidableEq

/-- Track status. -/
inductive TrackStatus
  | active
  | lost
  | finished
deriving DecidableEq

/-- The `Track` record. -/
structure Track where
  id : Nat
  status : TrackStatus
  startTime : ℤ
  lastSeen : ℤ
  detections : List Detection
  bbox : BBox
  confidence : ℚ
deriving DecidableEq

/-- The tracker's mutable state (`tracks`, `nextTrackId`, `frameCount`). -/
structure TrackerState where
  tracks : List Track
  nextTrackId : Nat
  frameCount : Nat
deriving DecidableEq

/-- Tracking parameters (`iouThreshold`, `maxLostFrames`; `minDetections`
is declared by the source but never read in the update path). -/
structure TrackerConfig where
  iouThreshold : ℚ
  maxLostFrames : Nat
  minDetections : Nat

/-- Constructor defaults: IoU threshold 0.3, 10 lost frames, 3 detections. -/
def defaultTrackerConfig : TrackerConfig :=
  { iouThreshold := 3 / 10, maxLostFrames := 10, minDetections := 3 }

/-- The `TrackerSimple.calculateIOU`.  Rational division is total (zero on a
zero union area); the source presumes well-formed boxes (positive extent,
a caller precondition per the spec), for which the union is positive. -/
def calculateIOU (bbox1 bbox2 : BBox) : ℚ :=
  let xLeft := max bbox1.x1 bbox2.x1
  let yTop := max bbox1.y1 bbox2.y1
  let xRight := min bbox1.x2 bbox2.x2
  let yBottom := min bbox1.y2 bbox2.y2
  if xRight < xLeft ∨ yBottom < yTop then 0
  else
    let intersectionArea := (xRight - xLeft) * (yBottom - yTop)
    let area1 := (bbox1.x2 - bbox1.x1) * (bbox1.y2 - bbox1.y1)
    let area2 := (bbox2.x2 - bbox2.x1) * (bbox2.y2 - bbox2.y1)
    intersectionArea / (area1 + area2 - intersectionArea)

/-- The provisional marking at cycle start: every active track to `lost`. -/
def markActiveAsLost (tracks : List Track) : List Track :=
  tracks.map fun t => if t.status = .active then { t with status := .lost } else t

/-- The best-match scan of the matching loop (`bestMatch`/`bestIOU` fold
over the track map, skipping finished tracks; strict improvement keeps
the first track on IoU ties). -/
def findBestMatch (cfg : TrackerConfig) (tracks : List Track) (d : Detection) :
    Option Track × ℚ :=
  tracks.foldl
    (fun best track =>
      if track.status = .finished then best
      else
        let iou := calculateIOU d.bbox track.bbox
        if iou > cfg.iouThreshold ∧ iou > best.2 then (some track, iou) else best)
    (none, 0)

/-- The `TrackerSimple.updateTrack`: reactivate, restamp time, push the
detection, replace the box and smooth the confidence. -/
def updateTrack (track : Track) (detection : Detection) (timeMs : ℤ) : Track :=
  { track with
    status := .active
    lastSeen := timeMs
    detections := track.detections ++ [detection]
    bbox := detection.bbox
    confidence := track.confidence * (7 / 10) + detection.conf * (3 / 10) }

/-- Keyed in-place mutation of the track map entry. -/
def setTrack (tracks : List Track) (t : Track) : List Track :=
  tracks.map fun u => if u.id = t.id then t else u

/-- The `TrackerSimple.createTrack` (the caller stamps the aliased detection
with the new identity right after creation, so the stored copy carries
it). -/
def createTrack (nextId : Nat) (d : Detection) (timeMs : ℤ) : Track :=
  { id := nextId
    status := .active
    startTime := timeMs
    lastSeen := timeMs
    detections := [{ d with trackId := some nextId }]
    bbox := d.bbox
    confidence := d.conf }

/-- The intermediate state of the matching loop. -/
structure MatchState where
  tracks : List Track
  unmatched : List Detection
deriving DecidableEq

/-- One iteration of the matching loop: non-plate detections are skipped,
a detection whose best IoU match exists updates that track (storing the
stamped detection), and an unmatched detection is queued for creation. -/
def matchStep (cfg : TrackerConfig) (timeMs : ℤ) (st : MatchState)
    (d : Detection) : MatchState :=
  if d.type ≠ .plate then st
  else
    match findBestMatch cfg st.tracks d with
    | (some bestMatch, _) =>
      { st with
        tracks := setTrack st.tracks
          (updateTrack bestMatch { d with trackId := some bestMatch.id } timeMs) }
    | (none, _) => { st with unmatched := st.unmatched ++ [d] }

/-- The creation loop over unmatched detections: each spawns a track
with the next fresh identity. -/
def createTracksForUnmatched (tracks : List Track) (nextId : Nat)
    (ds : List Detection) (timeMs : ℤ) : List Track × Nat :=
  ds.foldl (fun acc d => (acc.1 ++ [createTrack acc.2 d timeMs], acc.2 + 1))
    (tracks, nextId)

/-- JS `Math.round` (half away from zero is half up for the non-negative
frame counts involved). -/
def jsRound (q : ℚ) : ℤ := ⌊q + 1 / 2⌋

/-- The lost-to-finished transition of `handleLostTracks`: a lost track
whose time since `lastSeen`, in ~30 fps frames, exceeds `maxLostFrames`
becomes finished. -/
def applyLostTransition (cfg : TrackerConfig) (tracks : List Track)
    (timeMs : ℤ) : List Track :=
  tracks.map fun t =>
    if t.status = .lost then
      if jsRound (((timeMs - t.lastSeen : ℤ) : ℚ) / 33) > (cfg.maxLostFrames : ℤ) then
        { t with status := .finished }
      else t
    else t

/-- The eviction pass of `handleLostTracks`: finished tracks sorted by
`lastSeen` descending (stable), all but the 10 most recent deleted from
the map by id. -/
def evictOldFinished (tracks : List Track) : List Track :=
  let finishedTracks :=
    (tracks.filter (fun t => t.status = .finished)).mergeSort
      (fun a b => b.lastSeen ≤ a.lastSeen)
  let toRemove := finishedTracks.drop 10
  tracks.filter fun t => ¬ toRemove.any (fun r => r.id = t.id)

/-- The `TrackerSimple.handleLostTracks`. -/
def handleLostTracks (cfg : TrackerConfig) (tracks : List Track)
    (timeMs : ℤ) : List Track :=
  evictOldFinished (applyLostTransition cfg tracks timeMs)

/-- The `TrackerSimple.getActiveTracks`. -/
def getActiveTracks (tracks : List Track) : List Track :=
  tracks.filter (fun t => t.status = .active)

/-- The result of one `TrackerSimple.update` cycle: the new state and the
returned list of live tracks. -/
structure UpdateResult where
  state : TrackerState
  returned : List Track
deriving DecidableEq

/-- The `TrackerSimple.update`: bump the frame counter, provisionally mark
active tracks lost, match the detections in order, create tracks for the
unmatched ones, age out lost tracks, and return the active tracks. -/
def update (cfg : TrackerConfig) (st : TrackerState)
    (detections : List Detection) (timeMs : ℤ) : UpdateResult :=
  let marked := markActiveAsLost st.tracks
  let m := detections.foldl (matchStep cfg timeMs) ⟨marked, []⟩
  let created := createTracksForUnmatched m.tracks st.nextTrackId m.unmatched timeMs
  let aged := handleLostTracks cfg created.1 timeMs
  { state := { tracks := aged, nextTrackId := created.2,
               frameCount := st.frameCount + 1 }
    returned := getActiveTracks aged }

end Tracker

namespace Tracker

/-- Shorthand for the best-match fold step. -/
def bestStep (cfg : TrackerConfig) (d : Detection)
    (best : Option Track × ℚ) (track : Track) : Option Track × ℚ :=
  if track.status = .finished then best
  else
    let iou := calculateIOU d.bbox track.bbox
    if iou > cfg.iouThreshold ∧ iou > best.2 then (some track, iou) else best

lemma findBestMatch_eq_foldl (cfg : TrackerConfig) (tracks : List Track)
    (d : Detection) :
    findBestMatch cfg tracks d = tracks.foldl (bestStep cfg d) (none, 0) := rfl

/-- Tracks that cannot pass the threshold or beat the running best leave
the fold unchanged. -/
lemma bestStep_foldl_keep (cfg : TrackerConfig) (d : Detection) :
    ∀ (ts : List Track) (acc : Option Track × ℚ),
    (∀ t ∈ ts, t.status = .finished ∨
      calculateIOU d.bbox t.bbox ≤ cfg.iouThreshold ∨
      calculateIOU d.bbox t.bbox ≤ acc.2) →
    ts.foldl (bestStep cfg d) acc = acc := by
  intro ts
  induction ts with
  | nil => intro acc _; rfl
  | cons x xs ih =>
    intro acc h
    rw [List.foldl_cons]
    have hstep : bestStep cfg d acc x = acc := by
      unfold bestStep
      by_cases hfin : x.status = .finished
      · rw [if_pos hfin]
      · rw [if_neg hfin]
        rcases h x (List.mem_cons_self _ _) with hf | hthr | hle
        · exact absurd hf hfin
        · rw [if_neg (fun hc => absurd hc.1 (not_lt.mpr hthr))]
        · rw [if_neg (fun hc => absurd hc.2 (not_lt.mpr hle))]
    rw [hstep]
    exact ih acc (fun t ht => h t (List.mem_cons_of_mem _ ht))

/-- Tracks strictly below a bound keep the fold's running IoU below it. -/
lemma bestStep_foldl_lt (cfg : TrackerConfig) (d : Detection) (V : ℚ) :
    ∀ (ts : List Track) (acc : Option Track × ℚ),
    acc.2 < V →
    (∀ t ∈ ts, t.status = .finished ∨ calculateIOU d.bbox t.bbox < V) →
    (ts.foldl (bestStep cfg d) acc).2 < V := by
  intro ts
  induction ts with
  | nil => intro acc hacc _; exact hacc
  | cons x xs ih =>
    intro acc hacc h
    rw [List.foldl_cons]
    have hstep : (bestStep cfg d acc x).2 < V := by
      unfold bestStep
      by_cases hfin : x.status = .finished
      · rw [if_pos hfin]; exact hacc
      · rw [if_neg hfin]
        rcases h x (List.mem_cons_self _ _) with hf | hlt
        · exact absurd hf hfin
        · by_cases hc : calculateIOU d.bbox x.bbox > cfg.iouThreshold ∧
              calculateIOU d.bbox x.bbox > acc.2
          · rw [if_pos hc]; exact hlt
          · rw [if_neg hc]; exact hacc
    exact ih _ hstep (fun t ht => h t (List.mem_cons_of_mem _ ht))

/-- Characterization of `findBestMatch` in the matched case: when the
first track attaining the maximal IoU lies strictly above the (non
negative) threshold, the scan returns exactly that track and its IoU. -/
lemma findBestMatch_eq_argmax (cfg : TrackerConfig) (d : Detection)
    (pre post : List Track) (t₀ : Track)
    (hthr : 0 ≤ cfg.iouThreshold)
    (hfin : t₀.status ≠ .finished)
    (hiou : calculateIOU d.bbox t₀.bbox > cfg.iouThreshold)
    (hpre : ∀ t ∈ pre, t.status = .finished ∨
      calculateIOU d.bbox t.bbox < calculateIOU d.bbox t₀.bbox)
    (hpost : ∀ t ∈ post, t.status = .finished ∨
      calculateIOU d.bbox t.bbox ≤ calculateIOU d.bbox t₀.bbox) :
    findBestMatch cfg (pre ++ t₀ :: post) d
      = (some t₀, calculateIOU d.bbox t₀.bbox) := by
  rw [findBestMatch_eq_foldl, List.foldl_append]
  have hlt : (pre.foldl (bestStep cfg d) (none, 0)).2 < calculateIOU d.bbox t₀.bbox :=
    bestStep_foldl_lt cfg d _ pre (none, 0) (lt_of_le_of_lt hthr hiou) hpre
  rw [List.foldl_cons]
  have hstep : bestStep cfg d (pre.foldl (bestStep cfg d) (none, 0)) t₀
      = (some t₀, calculateIOU d.bbox t₀.bbox) := by
    unfold bestStep
    rw [if_neg hfin, if_pos ⟨hiou, hlt⟩]
  rw [hstep]
  apply bestStep_foldl_keep
  intro t ht
  rcases hpost t ht with hf | hle
  · exact Or.inl hf
  · exact Or.inr (Or.inr hle)

/-- Characterization of `findBestMatch` in the unmatched case: when no
non-finished track exceeds the threshold, the scan returns no match. -/
lemma findBestMatch_eq_none (cfg : TrackerConfig) (d : Detection)
    (tracks : List Track)
    (h : ∀ t ∈ tracks, t.status ≠ .finished →
      calculateIOU d.bbox t.bbox ≤ cfg.iouThreshold) :
    findBestMatch cfg tracks d = (none, 0) := by
  rw [findBestMatch_eq_foldl]
  apply bestStep_foldl_keep
  intro t ht
  by_cases hfin : t.status = .finished
  · exact Or.inl hfin
  · exact Or.inr (Or.inl (h t ht hfin))

end Tracker

namespace Tracker

/-- The tracks spawned, in order, by the creation loop starting at a
given fresh identity. -/
def spawnedTracks (nextId : Nat) (ds : List Detection) (timeMs : ℤ) : List Track :=
  match ds with
  | [] => []
  | d :: rest => createTrack nextId d timeMs :: spawnedTracks (nextId + 1) rest timeMs

lemma createTracksForUnmatched_eq (timeMs : ℤ) :
    ∀ (ds : List Detection) (tracks : List Track) (nextId : Nat),
    createTracksForUnmatched tracks nextId ds timeMs
      = (tracks ++ spawnedTracks nextId ds timeMs, nextId + ds.length) := by
  intro ds
  induction ds with
  | nil => intro tracks nextId; simp [createTracksForUnmatched, spawnedTracks]
  | cons d rest ih =>
    intro tracks nextId
    have h1 : createTracksForUnmatched tracks nextId (d :: rest) timeMs
        = createTracksForUnmatched (tracks ++ [createTrack nextId d timeMs])
            (nextId + 1) rest timeMs := by
      unfold createTracksForUnmatched
      rw [List.foldl_cons]
    rw [h1, ih]
    rw [Prod.mk.injEq]
    constructor
    · rw [List.append_assoc]
      rfl
    · simp only [List.length_cons]
      omega

lemma spawnedTracks_ids (timeMs : ℤ) :
    ∀ (ds : List Detection) (nextId : Nat),
    (spawnedTracks nextId ds timeMs).map (fun t => t.id)
      = (List.range ds.length).map (fun k => nextId + k) := by
  intro ds
  induction ds with
  | nil => intro nextId; rfl
  | cons d rest ih =>
    intro nextId
    rw [show spawnedTracks nextId (d :: rest) timeMs
        = createTrack nextId d timeMs :: spawnedTracks (nextId + 1) rest timeMs from rfl]
    rw [List.map_cons, ih]
    rw [show (d :: rest).length = rest.length + 1 from rfl]
    rw [List.range_succ_eq_map]
    rw [List.map_cons, List.map_map]
    rw [List.cons.injEq]
    constructor
    · rfl
    · apply List.map_congr_left
      intro k _
      simp
      omega

end Tracker

namespace Tracker

/-- Claim C2: in an update cycle, a plate detection whose highest IoU
against the non-finished tracks strictly exceeds the (non-negative)
threshold is matched to the first track attaining that highest IoU
(encounter order breaks ties): that track is set back to active, its box
replaced by the detection's box, its confidence smoothed as
`0.7*old + 0.3*new`, its last-seen time set to the sample time, and the
stored detection stamped with the track's identity.  A plate detection
with no track above the threshold is queued unmatched; the creation loop
then spawns one track per unmatched detection with fresh, monotonically
increasing identities starting at `nextTrackId`. -/
theorem tracker_greedy_match_and_fresh_ids (cfg : TrackerConfig) (timeMs : ℤ) :
    (∀ (st : MatchState) (d : Detection) (pre post : List Track) (t₀ : Track),
       0 ≤ cfg.iouThreshold →
       d.type = .plate →
       st.tracks = pre ++ t₀ :: post →
       t₀.status ≠ .finished →
       calculateIOU d.bbox t₀.bbox > cfg.iouThreshold →
       (∀ t ∈ pre, t.status = .finished ∨
          calculateIOU d.bbox t.bbox < calculateIOU d.bbox t₀.bbox) →
       (∀ t ∈ post, t.status = .finished ∨
          calculateIOU d.bbox t.bbox ≤ calculateIOU d.bbox t₀.bbox) →
       matchStep cfg timeMs st d
         = { st with tracks := setTrack st.tracks
                       (updateTrack t₀ { d with trackId := some t₀.id } timeMs) }
       ∧ (updateTrack t₀ { d with trackId := some t₀.id } timeMs).status = .active
       ∧ (updateTrack t₀ { d with trackId := some t₀.id } timeMs).bbox = d.bbox
       ∧ (updateTrack t₀ { d with trackId := some t₀.id } timeMs).confidence
           = t₀.confidence * (7 / 10) + d.conf * (3 / 10)
       ∧ (updateTrack t₀ { d with trackId := some t₀.id } timeMs).lastSeen = timeMs
       ∧ (updateTrack t₀ { d with trackId := some t₀.id } timeMs).detections
           = t₀.detections ++ [{ d with trackId := some t₀.id }])
  ∧ (∀ (st : MatchState) (d : Detection),
       d.type = .plate →
       (∀ t ∈ st.tracks, t.status ≠ .finished →
          calculateIOU d.bbox t.bbox ≤ cfg.iouThreshold) →
       matchStep cfg timeMs st d = { st with unmatched := st.unmatched ++ [d] })
  ∧ (∀ (tracks : List Track) (nextId : Nat) (ds : List Detection),
       createTracksForUnmatched tracks nextId ds timeMs
         = (tracks ++ spawnedTracks nextId ds timeMs, nextId + ds.length)
       ∧ (spawnedTracks nextId ds timeMs).map (fun t => t.id)
         = (List.range ds.length).map (fun k => nextId + k))
  ∧ (∀ (nextId : Nat) (d : Detection),
       (createTrack nextId d timeMs).id = nextId
       ∧ (createTrack nextId d timeMs).status = .active
       ∧ (createTrack nextId d timeMs).detections = [{ d with trackId := some nextId }]
       ∧ (createTrack nextId d timeMs).bbox = d.bbox
       ∧ (createTrack nextId d timeMs).confidence = d.conf) := by
  refine ⟨?_, ?_, ?_, ?_⟩
  · intro st d pre post t₀ hthr hplate hsplit hfin hiou hpre hpost
    have hfb : findBestMatch cfg st.tracks d
        = (some t₀, calculateIOU d.bbox t₀.bbox) := by
      rw [hsplit]
      exact findBestMatch_eq_argmax cfg d pre post t₀ hthr hfin hiou hpre hpost
    refine ⟨?_, rfl, rfl, rfl, rfl, rfl⟩
    unfold matchStep
    rw [if_neg (by simp [hplate]), hfb]
  · intro st d hplate h
    have hfb : findBestMatch cfg st.tracks d = (none, 0) :=
      findBestMatch_eq_none cfg d st.tracks h
    unfold matchStep
    rw [if_neg (by simp [hplate]), hfb]
  · intro tracks nextId ds
    exact ⟨createTracksForUnmatched_eq timeMs ds tracks nextId,
      spawnedTracks_ids timeMs ds nextId⟩
  · intro nextId d
    exact ⟨rfl, rfl, rfl, rfl, rfl⟩

end Tracker

namespace Tracker

/-- The unit box used by the tracker witnesses. -/
def wBox : BBox := { x1 := 0, y1 := 0, x2 := 1, y2 := 1 }

/-- A lost track over the unit box. -/
def wTrack : Track :=
  { id := 5, status := .lost, startTime := 0, lastSeen := 0, detections := [],
    bbox := wBox, confidence := 1 }

/-- A plate detection over the unit box. -/
def wDet : Detection := { type := .plate, bbox := wBox, conf := 1, trackId := none }

/-- Witness for `tracker_greedy_match_and_fresh_ids`: the unit-box
detection matches the unit-box track (IoU 1 > 0.3), reactivating it; a
creation run on one unmatched detection spawns track 7 and advances the
fresh id to 8. -/
theorem tracker_greedy_match_witness :
    (0 ≤ defaultTrackerConfig.iouThreshold
      ∧ calculateIOU wDet.bbox wTrack.bbox > defaultTrackerConfig.iouThreshold)
    ∧ matchStep defaultTrackerConfig 100 ⟨[wTrack], []⟩ wDet
        = ⟨setTrack [wTrack]
             (updateTrack wTrack { wDet with trackId := some wTrack.id } 100), []⟩
    ∧ (updateTrack wTrack { wDet with trackId := some wTrack.id } 100).status = .active
    ∧ createTracksForUnmatched [] 7 [wDet] 100 = ([createTrack 7 wDet 100], 8) := by
  have hthr : 0 ≤ defaultTrackerConfig.iouThreshold := by
    norm_num [defaultTrackerConfig]
  have hiou : calculateIOU wDet.bbox wTrack.bbox > defaultTrackerConfig.iouThreshold := by
    norm_num [calculateIOU, wDet, wTrack, wBox, defaultTrackerConfig]
  have h := (tracker_greedy_match_and_fresh_ids defaultTrackerConfig 100).1
    ⟨[wTrack], []⟩ wDet [] [] wTrack hthr rfl rfl (by decide) hiou (by simp) (by simp)
  have hc := (tracker_greedy_match_and_fresh_ids defaultTrackerConfig 100).2.2.1 [] 7 [wDet]
  exact ⟨⟨hthr, hiou⟩, h.1, h.2.1, hc.1.trans rfl⟩

end Tracker

namespace Tracker

/-- The key sequence of the track map. -/
def idsOf (ts : List Track) : List Nat := ts.map (fun t => t.id)

lemma idsOf_markActiveAsLost (ts : List Track) :
    idsOf (markActiveAsLost ts) = idsOf ts := by
  unfold idsOf markActiveAsLost
  rw [List.map_map]
  apply List.map_congr_left
  intro u _
  by_cases h : u.status = .active <;> simp [h]

lemma idsOf_setTrack (ts : List Track) (t' : Track) :
    idsOf (setTrack ts t') = idsOf ts := by
  unfold idsOf setTrack
  rw [List.map_map]
  apply List.map_congr_left
  intro u _
  by_cases h : u.id = t'.id <;> simp [h]

lemma idsOf_matchStep (cfg : TrackerConfig) (timeMs : ℤ) (st : MatchState)
    (d : Detection) :
    idsOf (matchStep cfg timeMs st d).tracks = idsOf st.tracks := by
  unfold matchStep
  by_cases hd : d.type ≠ .plate
  · rw [if_pos hd]
  · rw [if_neg hd]
    rcases hfb : findBestMatch cfg st.tracks d with ⟨b, v⟩
    cases b with
    | none => rfl
    | some t' => exact idsOf_setTrack _ _

lemma idsOf_fold_matchStep (cfg : TrackerConfig) (timeMs : ℤ) :
    ∀ (ds : List Detection) (st : MatchState),
    idsOf (ds.foldl (matchStep cfg timeMs) st).tracks = idsOf st.tracks := by
  intro ds
  induction ds with
  | nil => intro st; rfl
  | cons d rest ih =>
    intro st
    rw [List.foldl_cons, ih, idsOf_matchStep]

lemma idsOf_applyLostTransition (cfg : TrackerConfig) (ts : List Track)
    (timeMs : ℤ) : idsOf (applyLostTransition cfg ts timeMs) = idsOf ts := by
  unfold idsOf applyLostTransition
  rw [List.map_map]
  apply List.map_congr_left
  intro u _
  simp only [Function.comp_apply]
  by_cases h : u.status = .lost
  · rw [if_pos h]
    split <;> rfl
  · rw [if_neg h]

lemma evictOldFinished_subset {ts : List Track} {u : Track}
    (h : u ∈ evictOldFinished ts) : u ∈ ts := by
  unfold evictOldFinished at h
  exact (List.mem_filter.mp h).1

lemma idsOf_evictOldFinished_sublist (ts : List Track) :
    List.Sublist (idsOf (evictOldFinished ts)) (idsOf ts) := by
  unfold evictOldFinished idsOf
  exact List.Sublist.map _ (List.filter_sublist ts)

end Tracker

namespace Tracker

/-- The finished track `t` is the only entry carrying its id. -/
def FixedAt (t : Track) (ts : List Track) : Prop :=
  ∀ u ∈ ts, u.id = t.id → u = t

lemma fixedAt_markActiveAsLost {t : Track} {ts : List Track}
    (hfin : t.status = .finished) (h : FixedAt t ts) :
    FixedAt t (markActiveAsLost ts) := by
  intro u' hu' hid
  unfold markActiveAsLost at hu'
  rcases List.mem_map.mp hu' with ⟨u, hu, rfl⟩
  by_cases hst : u.status = .active
  · rw [if_pos hst] at hid ⊢
    have hut : u = t := h u hu (by simpa using hid)
    rw [hut] at hst
    rw [hfin] at hst
    cases hst
  · rw [if_neg hst] at hid ⊢
    exact h u hu hid

lemma findBestMatch_mem {cfg : TrackerConfig} {d : Detection} {ts : List Track}
    {t' : Track} {v : ℚ} (h : findBestMatch cfg ts d = (some t', v)) :
    t' ∈ ts ∧ t'.status ≠ .finished := by
  have key : ∀ (l : List Track) (acc : Option Track × ℚ),
      (∀ x ∈ l, x ∈ ts) →
      (∀ w, acc.1 = some w → w ∈ ts ∧ w.status ≠ .finished) →
      ∀ w, (l.foldl (bestStep cfg d) acc).1 = some w → w ∈ ts ∧ w.status ≠ .finished := by
    intro l
    induction l with
    | nil => intro acc _ hacc w hw; exact hacc w hw
    | cons x xs ih =>
      intro acc hsub hacc w hw
      rw [List.foldl_cons] at hw
      refine ih _ (fun y hy => hsub y (List.mem_cons_of_mem _ hy)) ?_ w hw
      intro w' hw'
      unfold bestStep at hw'
      by_cases hfin : x.status = .finished
      · rw [if_pos hfin] at hw'
        exact hacc w' hw'
      · rw [if_neg hfin] at hw'
        by_cases hc : calculateIOU d.bbox x.bbox > cfg.iouThreshold ∧
            calculateIOU d.bbox x.bbox > acc.2
        · rw [if_pos hc] at hw'
          cases hw'
          exact ⟨hsub x (List.mem_cons_self _ _), hfin⟩
        · rw [if_neg hc] at hw'
          exact hacc w' hw'
  have h1 : (ts.foldl (bestStep cfg d) (none, 0)).1 = some t' := by
    rw [← findBestMatch_eq_foldl, h]
  exact key ts (none, 0) (fun x hx => hx) (fun w hw => by cases hw) t' h1

lemma fixedAt_setTrack {t t' : Track} {ts : List Track}
    (hne : t'.id ≠ t.id) (h : FixedAt t ts) : FixedAt t (setTrack ts t') := by
  intro u' hu' hid
  unfold setTrack at hu'
  rcases List.mem_map.mp hu' with ⟨u, hu, rfl⟩
  by_cases hx : u.id = t'.id
  · rw [if_pos hx] at hid ⊢
    exact absurd hid hne
  · rw [if_neg hx] at hid ⊢
    exact h u hu hid

lemma fixedAt_matchStep {cfg : TrackerConfig} {timeMs : ℤ} {t : Track}
    {st : MatchState} {d : Detection}
    (hfin : t.status = .finished) (h : FixedAt t st.tracks) :
    FixedAt t (matchStep cfg timeMs st d).tracks := by
  unfold matchStep
  by_cases hd : d.type ≠ .plate
  · rw [if_pos hd]
    exact h
  · rw [if_neg hd]
    rcases hfb : findBestMatch cfg st.tracks d with ⟨b, v⟩
    cases b with
    | none => exact h
    | some t' =>
      obtain ⟨hmem, hnf⟩ := findBestMatch_mem hfb
      have hne : (updateTrack t' { d with trackId := some t'.id } timeMs).id ≠ t.id := by
        show t'.id ≠ t.id
        intro he
        exact hnf (by rw [h t' hmem he]; exact hfin)
      exact fixedAt_setTrack hne h

lemma fixedAt_fold_matchStep {cfg : TrackerConfig} {timeMs : ℤ} {t : Track}
    (hfin : t.status = .finished) :
    ∀ (ds : List Detection) (st : MatchState), FixedAt t st.tracks →
    FixedAt t (ds.foldl (matchStep cfg timeMs) st).tracks := by
  intro ds
  induction ds with
  | nil => intro st h; exact h
  | cons d rest ih =>
    intro st h
    rw [List.foldl_cons]
    exact ih _ (fixedAt_matchStep hfin h)

lemma fixedAt_append_spawned {t : Track} {ts : List Track} {nextId : Nat}
    {ds : List Detection} {timeMs : ℤ}
    (hbound : t.id < nextId) (h : FixedAt t ts) :
    FixedAt t (ts ++ spawnedTracks nextId ds timeMs) := by
  intro u hu hid
  rcases List.mem_append.mp hu with hl | hr
  · exact h u hl hid
  · exfalso
    have : u.id ∈ (spawnedTracks nextId ds timeMs).map (fun x => x.id) :=
      List.mem_map_of_mem _ hr
    rw [spawnedTracks_ids] at this
    rcases List.mem_map.mp this with ⟨k, _, hk⟩
    omega

lemma fixedAt_applyLostTransition {cfg : TrackerConfig} {t : Track}
    {ts : List Track} {timeMs : ℤ}
    (hfin : t.status = .finished) (h : FixedAt t ts) :
    FixedAt t (applyLostTransition cfg ts timeMs) := by
  intro u' hu' hid
  unfold applyLostTransition at hu'
  rcases List.mem_map.mp hu' with ⟨u, hu, rfl⟩
  by_cases hst : u.status = .lost
  · rw [if_pos hst] at hid ⊢
    by_cases h2 : jsRound (((timeMs - u.lastSeen : ℤ) : ℚ) / 33) > (cfg.maxLostFrames : ℤ)
    · rw [if_pos h2] at hid ⊢
      have hut : u = t := h u hu (by simpa using hid)
      rw [hut, hfin] at hst
      cases hst
    · rw [if_neg h2] at hid ⊢
      exact h u hu hid
  · rw [if_neg hst] at hid ⊢
    exact h u hu hid

lemma fixedAt_evictOldFinished {t : Track} {ts : List Track}
    (h : FixedAt t ts) : FixedAt t (evictOldFinished ts) :=
  fun u hu hid => h u (evictOldFinished_subset hu) hid

end Tracker

namespace Tracker

/-- The induction invariant of the finished-is-terminal proof: unique
keys, key bound by the fresh-id counter, the finished track's id below
the counter, and the finished track fixed at its id. -/
def Inv (t : Track) (st : TrackerState) : Prop :=
  (idsOf st.tracks).Nodup ∧ (∀ u ∈ st.tracks, u.id < st.nextTrackId) ∧
    t.id < st.nextTrackId ∧ FixedAt t st.tracks

lemma mem_idsOf {ts : List Track} {u : Track} (h : u ∈ ts) : u.id ∈ idsOf ts :=
  List.mem_map_of_mem _ h

lemma update_preserves_inv (cfg : TrackerConfig) (st : TrackerState)
    (ds : List Detection) (timeMs : ℤ) {t : Track}
    (hfin : t.status = .finished) (hinv : Inv t st) :
    Inv t (update cfg st ds timeMs).state := by
  obtain ⟨hnd, hbound, htid, hfix⟩ := hinv
  -- phase A and the matching fold preserve the key sequence
  have hidsA : idsOf (markActiveAsLost st.tracks) = idsOf st.tracks :=
    idsOf_markActiveAsLost _
  have hidsB : idsOf (ds.foldl (matchStep cfg timeMs)
      ⟨markActiveAsLost st.tracks, []⟩).tracks = idsOf st.tracks := by
    rw [idsOf_fold_matchStep, hidsA]
  set m := ds.foldl (matchStep cfg timeMs) ⟨markActiveAsLost st.tracks, []⟩ with hm
  -- the creation phase appends fresh ids
  have hcreate := createTracksForUnmatched_eq timeMs m.unmatched m.tracks st.nextTrackId
  set tracks2 := m.tracks ++ spawnedTracks st.nextTrackId m.unmatched timeMs with ht2
  have hids2 : idsOf tracks2 = idsOf st.tracks
      ++ (List.range m.unmatched.length).map (fun k => st.nextTrackId + k) := by
    rw [ht2]
    unfold idsOf
    rw [List.map_append]
    rw [show (spawnedTracks st.nextTrackId m.unmatched timeMs).map (fun x => x.id)
        = (List.range m.unmatched.length).map (fun k => st.nextTrackId + k)
      from spawnedTracks_ids timeMs m.unmatched st.nextTrackId]
    rw [show (m.tracks).map (fun x => x.id) = idsOf st.tracks from hidsB]
    rfl
  have hnd2 : (idsOf tracks2).Nodup := by
    rw [hids2]
    rw [List.nodup_append]
    refine ⟨hnd, ?_, ?_⟩
    · apply List.Nodup.map
      · intro a b hab
        have hab2 : st.nextTrackId + a = st.nextTrackId + b := hab
        omega
      · exact List.nodup_range _
    · intro i hi
      have hlt : i < st.nextTrackId := by
        rcases List.mem_map.mp hi with ⟨u, hu, rfl⟩
        exact hbound u hu
      intro hi2
      rcases List.mem_map.mp hi2 with ⟨k, _, hk⟩
      have hk2 : st.nextTrackId + k = i := hk
      omega
  have hbound2 : ∀ i ∈ idsOf tracks2, i < st.nextTrackId + m.unmatched.length := by
    intro i hi
    rw [hids2] at hi
    rcases List.mem_append.mp hi with hl | hr
    · rcases List.mem_map.mp hl with ⟨u, hu, rfl⟩
      have := hbound u hu
      omega
    · rcases List.mem_map.mp hr with ⟨k, hk, hk2⟩
      have hk3 : st.nextTrackId + k = i := hk2
      have := List.mem_range.mp hk
      omega
  have hfix2 : FixedAt t tracks2 := by
    rw [ht2]
    exact fixedAt_append_spawned htid
      (fixedAt_fold_matchStep hfin ds _ (fixedAt_markActiveAsLost hfin hfix))
  -- the aging phase keeps a sub-map with the same properties
  have hids3 : idsOf (applyLostTransition cfg tracks2 timeMs) = idsOf tracks2 :=
    idsOf_applyLostTransition _ _ _
  have hsub4 : List.Sublist (idsOf (handleLostTracks cfg tracks2 timeMs))
      (idsOf tracks2) := by
    unfold handleLostTracks
    rw [← hids3]
    exact idsOf_evictOldFinished_sublist _
  have hres : (update cfg st ds timeMs).state
      = { tracks := handleLostTracks cfg tracks2 timeMs,
          nextTrackId := st.nextTrackId + m.unmatched.length,
          frameCount := st.frameCount + 1 } := by
    unfold update
    simp only []
    rw [← hm, hcreate]
  rw [hres]
  refine ⟨hsub4.nodup hnd2, ?_, by simp; omega, ?_⟩
  · intro u hu
    have : u.id ∈ idsOf (handleLostTracks cfg tracks2 timeMs) := mem_idsOf hu
    have := hbound2 u.id (hsub4.subset this)
    simpa using this
  · show FixedAt t (handleLostTracks cfg tracks2 timeMs)
    unfold handleLostTracks
    exact fixedAt_evictOldFinished (fixedAt_applyLostTransition hfin hfix2)

/-- A sequence of update cycles applied to a tracker state. -/
def runUpdates (cfg : TrackerConfig) (st : TrackerState)
    (calls : List (List Detection × ℤ)) : TrackerState :=
  calls.foldl (fun s c => (update cfg s c.1 c.2).state) st

lemma runUpdates_preserves_inv (cfg : TrackerConfig) {t : Track}
    (hfin : t.status = .finished) :
    ∀ (calls : List (List Detection × ℤ)) (st : TrackerState),
    Inv t st → Inv t (runUpdates cfg st calls) := by
  intro calls
  induction calls with
  | nil => intro st h; exact h
  | cons c rest ih =>
    intro st h
    exact ih _ (update_preserves_inv cfg st c.1 c.2 hfin h)

/-- Claim C4: a track's status never regresses from `finished`.  For any
well-formed tracker state (unique ids, all below the fresh-id counter)
containing a finished track, after any sequence of `update` calls every
track in the map carrying that id is the original finished track,
unchanged in every field — so it was never set back to active or lost and
never matched to any later detection (it can only be evicted from the
map). -/
theorem tracker_finished_is_terminal (cfg : TrackerConfig) (st : TrackerState)
    (calls : List (List Detection × ℤ)) (t : Track)
    (hnd : (idsOf st.tracks).Nodup)
    (hbound : ∀ u ∈ st.tracks, u.id < st.nextTrackId)
    (hmem : t ∈ st.tracks) (hfin : t.status = .finished) :
    ∀ u ∈ (runUpdates cfg st calls).tracks, u.id = t.id →
      u = t ∧ u.status = .finished := by
  have hfix : FixedAt t st.tracks := by
    intro u hu hid
    exact List.inj_on_of_nodup_map hnd hu hmem hid
  have hinv : Inv t st := ⟨hnd, hbound, hbound t hmem, hfix⟩
  have h := runUpdates_preserves_inv cfg hfin calls st hinv
  intro u hu hid
  have hut := h.2.2.2 u hu hid
  exact ⟨hut, by rw [hut]; exact hfin⟩

/-- The finished track of the terminal-status witness. -/
def wFinished : Track :=
  { id := 2, status := .finished, startTime := 0, lastSeen := 0, detections := [],
    bbox := wBox, confidence := 1 }

/-- Witness for `tracker_finished_is_terminal`: a one-track state run
through one empty update cycle keeps the finished track finished. -/
theorem tracker_finished_is_terminal_witness :
    ((idsOf [wFinished]).Nodup ∧ wFinished ∈ [wFinished]
      ∧ wFinished.status = .finished)
    ∧ ∀ u ∈ (runUpdates defaultTrackerConfig ⟨[wFinished], 3, 0⟩ [([], 50)]).tracks,
        u.id = wFinished.id → u = wFinished ∧ u.status = .finished := by
  refine ⟨⟨by decide, List.mem_cons_self _ _, rfl⟩, ?_⟩
  exact tracker_finished_is_terminal defaultTrackerConfig ⟨[wFinished], 3, 0⟩
    [([], 50)] wFinished (by decide) (by decide) (List.mem_cons_self _ _) rfl

end Tracker

namespace Tracker

/-- A finished track with identity `i + 1`, seen at time `1000 - i`. -/
def finTrack (i : Nat) : Track :=
  { id := i + 1, status := .finished, startTime := 0, lastSeen := 1000 - (i : ℤ),
    detections := [], bbox := wBox, confidence := 1 }

/-- A tracker state holding eleven finished tracks, one over the
10-track retention cap. -/
def stEleven : TrackerState :=
  { tracks := (List.range 11).map finTrack, nextTrackId := 12, frameCount := 0 }

/-- Counterexample to claim C10: with eleven finished tracks in the map,
an update cycle does not retain them all — the returned list is indeed
the active tracks (empty here), but the least-recently-seen finished
track (id 11) is evicted from the internal map rather than retained. -/
theorem tracker_update_retention_counterexample :
    (∀ u ∈ stEleven.tracks, u.status = .finished)
    ∧ 11 ∈ idsOf stEleven.tracks
    ∧ idsOf (update defaultTrackerConfig stEleven [] 2000).state.tracks
        = [1, 2, 3, 4, 5, 6, 7, 8, 9, 10]
    ∧ 11 ∉ idsOf (update defaultTrackerConfig stEleven [] 2000).state.tracks := by
  have hstep : (update defaultTrackerConfig stEleven [] 2000).state.tracks
      = evictOldFinished (applyLostTransition defaultTrackerConfig
          (markActiveAsLost stEleven.tracks) 2000) := rfl
  have hpre : applyLostTransition defaultTrackerConfig
      (markActiveAsLost stEleven.tracks) 2000 = stEleven.tracks := by decide
  have hsorted : ((stEleven.tracks.filter
        (fun t => t.status = .finished)).mergeSort
          (fun a b => b.lastSeen ≤ a.lastSeen))
      = stEleven.tracks.filter (fun t => t.status = .finished) :=
    List.mergeSort_of_sorted (by decide)
  have hmain : idsOf (update defaultTrackerConfig stEleven [] 2000).state.tracks
      = [1, 2, 3, 4, 5, 6, 7, 8, 9, 10] := by
    rw [hstep, hpre]
    unfold evictOldFinished
    rw [hsorted]
    decide
  exact ⟨by decide, by decide, hmain, by rw [hmain]; decide⟩

/-- Members with the same id coincide when the key sequence is unique. -/
lemma track_id_inj {ts : List Track} (hnd : (idsOf ts).Nodup) {a b : Track}
    (ha : a ∈ ts) (hb : b ∈ ts) (h : a.id = b.id) : a = b :=
  List.inj_on_of_nodup_map hnd ha hb h

/-- Claim C10 (amended): after every update cycle the returned list is
exactly the tracks whose status is `active` in the post-cycle map;
non-active tracks are excluded from it; under unique ids, the eviction
pass retains every non-finished (active or lost) track, and a track it
removes is a finished track beyond the 10 most-recently-seen finished
tracks. -/
theorem tracker_update_returns_active (cfg : TrackerConfig)
    (st : TrackerState) (ds : List Detection) (timeMs : ℤ) :
    (update cfg st ds timeMs).returned
      = getActiveTracks (update cfg st ds timeMs).state.tracks
    ∧ (∀ u, u ∈ (update cfg st ds timeMs).returned ↔
        u ∈ (update cfg st ds timeMs).state.tracks ∧ u.status = .active)
    ∧ (∀ ts : List Track, (idsOf ts).Nodup →
        ∀ u ∈ ts, u.status ≠ .finished → u ∈ evictOldFinished ts)
    ∧ (∀ ts : List Track, (idsOf ts).Nodup →
        ∀ u ∈ ts, u ∉ evictOldFinished ts →
          u.status = .finished ∧
          u ∈ ((ts.filter (fun x => x.status = .finished)).mergeSort
            (fun a b => b.lastSeen ≤ a.lastSeen)).drop 10) := by
  refine ⟨rfl, ?_, ?_, ?_⟩
  · intro u
    show u ∈ getActiveTracks (update cfg st ds timeMs).state.tracks ↔ _
    unfold getActiveTracks
    rw [List.mem_filter]
    simp
  · intro ts hnd u hu hnf
    unfold evictOldFinished
    apply List.mem_filter.mpr
    refine ⟨hu, ?_⟩
    simp only [List.any_eq_true, decide_eq_true_eq, not_exists, not_and,
      decide_not, Bool.not_eq_false', decide_eq_false_iff_not]
    intro r hr hrid
    have hrmem : r ∈ ts.filter (fun x => x.status = .finished) := by
      have h1 := List.drop_subset _ _ hr
      exact List.mem_mergeSort.mp h1
    have hrfin : r.status = .finished := by
      simpa using List.of_mem_filter hrmem
    have hrts : r ∈ ts := (List.mem_filter.mp hrmem).1
    have hru : r = u := track_id_inj hnd hrts hu hrid
    rw [hru] at hrfin
    exact hnf hrfin
  · intro ts hnd u hu hnot
    by_cases hany : (((ts.filter (fun x => x.status = .finished)).mergeSort
        (fun a b => b.lastSeen ≤ a.lastSeen)).drop 10).any
          (fun r => r.id = u.id) = true
    swap
    · exfalso
      apply hnot
      unfold evictOldFinished
      exact List.mem_filter.mpr ⟨hu, by simpa using hany⟩
    rcases List.any_eq_true.mp hany with ⟨r, hr, hrid⟩
    have hrmem : r ∈ ts.filter (fun x => x.status = .finished) :=
      List.mem_mergeSort.mp (List.drop_subset _ _ hr)
    have hrts : r ∈ ts := (List.mem_filter.mp hrmem).1
    have hru : r = u := track_id_inj hnd hrts hu (by simpa using hrid)
    refine ⟨?_, ?_⟩
    · rw [← hru]
      simpa using List.of_mem_filter hrmem
    · rw [← hru]
      exact hr

end Tracker

namespace Tracker

/-- Witness for `tracker_update_returns_active`: with a lost track and a
finished track sharing the map, the eviction pass retains the lost one,
and an update cycle's returned list is the active filter of its map. -/
theorem tracker_update_returns_active_witness :
    ((idsOf [wTrack, wFinished]).Nodup ∧ wTrack ∈ [wTrack, wFinished]
      ∧ wTrack.status ≠ .finished)
    ∧ wTrack ∈ evictOldFinished [wTrack, wFinished]
    ∧ (update defaultTrackerConfig ⟨[wFinished], 3, 0⟩ [] 50).returned
        = getActiveTracks (update defaultTrackerConfig ⟨[wFinished], 3, 0⟩ [] 50).state.tracks := by
  refine ⟨⟨by decide, List.mem_cons_self _ _, by decide⟩, ?_, ?_⟩
  · exact (tracker_update_returns_active defaultTrackerConfig ⟨[wFinished], 3, 0⟩ [] 50).2.2.1
      [wTrack, wFinished] (by decide) wTrack (List.mem_cons_self _ _) (by decide)
  · exact (tracker_update_returns_active defaultTrackerConfig ⟨[wFinished], 3, 0⟩ [] 50).1

end Tracker
